import Mathlib

/-!
# DROWN decryption core (`decrypt.c`)

A shallow embedding of `oracle_guess`, `oracle_valid`, `find_multiplier` and
`decrypt`.  OpenSSL big numbers are natural numbers, C `int`s are integers,
and the remote oracle is a pair of functions on the 256-byte request buffer.
Calls whose behaviour C or OpenSSL leave undefined (a negative shift count, a
read past a buffer, signed overflow, a zero modulus) yield `none`.
-/

namespace Drown

/-! ## Big-number primitives -/

/-- Largest value of the C type `int` (32 bits). -/
def INT_MAX : Int := 2147483647

/-- Smallest value of the C type `int` (32 bits). -/
def INT_MIN : Int := -2147483648

/-- Largest value of the C type `unsigned long` (64 bits), the type of the
search counter `s` in `find_multiplier`. -/
def ULONG_MAX : Nat := 18446744073709551615

/-- Counts the binary digits of `a` by repeated halving. -/
def numBitsAux : Nat → Nat → Nat
  | 0, _ => 0
  | fuel + 1, a => if a = 0 then 0 else numBitsAux fuel (a / 2) + 1

/-- Number of significant bits, `BN_num_bits`. -/
def BN_num_bits (a : Nat) : Nat := numBitsAux a a

/-- Number of significant bytes, `BN_num_bytes`. -/
def BN_num_bytes (a : Nat) : Nat := (BN_num_bits a + 7) / 8

/-- Writes the `k` low-order bytes of `a` in front of `acc`, most significant first. -/
def bn2binAux : Nat → Nat → List Nat → List Nat
  | 0, _, acc => acc
  | k + 1, a, acc => bn2binAux k (a / 256) (a % 256 :: acc)

/-- Big-endian bytes of `a` without leading zeros, `BN_bn2bin`. -/
def BN_bn2bin (a : Nat) : List Nat := bn2binAux (BN_num_bytes a) a []

/-- Big-endian decoding of a byte string, `BN_bin2bn`; every entry is read as
an `unsigned char`. -/
def BN_bin2bn (s : List Nat) : Nat := s.foldl (fun acc b => acc * 256 + b % 256) 0

/-- Bit test `BN_is_bit_set(a, i)`; a negative index is never set. -/
def BN_is_bit_set (a : Nat) (i : Int) : Bool := decide (0 ≤ i) && a.testBit i.toNat

/-- Euclid's algorithm on the remainders `r0, r1`, carrying the coefficients
`t0, t1` of the number being inverted. -/
def inverseLoop : Nat → Nat → Nat → Int → Int → Nat × Int
  | 0, r0, _, t0, _ => (r0, t0)
  | fuel + 1, r0, r1, t0, t1 =>
    if r1 = 0 then (r0, t0)
    else inverseLoop fuel r1 (r0 % r1) t1 (t0 - (r0 / r1 : Nat) * t1)

/-- Modular inverse `BN_mod_inverse(a, n)`: the `x < n` with `a * x ≡ 1 (mod n)`,
or `none` when `a` has no inverse modulo `n`. -/
def BN_mod_inverse (a n : Nat) : Option Nat :=
  if n = 0 then none
  else
    let r := inverseLoop (n + 1) n (a % n) 0 1
    if r.1 = 1 then some (r.2 % (n : Int)).toNat else none

/-! ## The oracle -/

/-- The two remote queries of `oracle.h`.  `run_oracle_valid_multiple` maps
the request buffer to the number of certified bytes; `run_oracle_guess` maps
the requested byte count and the request buffer to the bytes it writes into
`result`. -/
structure Oracle where
  run_oracle_valid_multiple : List Nat → Int
  run_oracle_guess : Int → List Nat → List Nat

/-- The request buffer `enc_key[256]`: `c` big-endian, written at offset
`256 - BN_num_bytes(c)` of a zeroed buffer.  A `c` of more than 256 bytes would
be written before the start of the buffer. -/
def enc_key (c : Nat) : Option (List Nat) :=
  if BN_num_bytes c ≤ 256 then
    some (List.replicate (256 - BN_num_bytes c) 0 ++ BN_bn2bin c)
  else none

/-- Model of `oracle_guess(dctx, c, k, bsize)`; the result is the value stored
in `k`.  `result` has 24 bytes, of which `bytesize = bsize/8-1` are read back:
a negative `bytesize`, one above 24, or an oracle that wrote fewer bytes than
are read leaves the value undefined (`none`). -/
def oracle_guess (O : Oracle) (c : Nat) (bsize : Int) : Option Nat :=
  let bytesize := Int.tdiv bsize 8 - 1
  match enc_key c with
  | none => none
  | some buf =>
    let result := O.run_oracle_guess bytesize buf
    if bytesize < 0 ∨ 24 < bytesize ∨ result.length < bytesize.toNat then none
    else some (BN_bin2bn (result.take bytesize.toNat))

/-- Model of `oracle_valid(dctx, c)`: the number of bits we can learn, 0 if
invalid.  A product `(size + 1) * 8` outside the range of `int` is undefined
(`none`). -/
def oracle_valid (O : Oracle) (c : Nat) : Option Int :=
  match enc_key c with
  | none => none
  | some buf =>
    let size := O.run_oracle_valid_multiple buf
    if size = 0 then some 0
    else if (size + 1) * 8 < INT_MIN ∨ INT_MAX < (size + 1) * 8 then none
    else some ((size + 1) * 8)

/-! ## `find_multiplier` -/

/-- What `find_multiplier` returns and leaves behind: the return value `l`,
the multiplier stored in `ss`, the accumulated `mt`, the new `dctx->c`, and
the ciphertexts it passed to `oracle_valid`, in the order of the calls. -/
structure Found where
  l : Int
  ss : Nat
  mt : Nat
  c : Nat
  queries : List Nat
deriving DecidableEq, Repr

/-- The `for (unsigned long s = 1; l == 0; s++)` loop, entered with counter
`s`, accumulator `mt` and the oracle queries `qs` made so far.  `fuel` bounds
the number of trials; a counter past `ULONG_MAX` is outside the model. -/
def searchLoop (O : Oracle) (n e cl_1e inc : Nat) :
    Nat → Nat → Nat → List Nat → Option Found
  | 0, _, _, _ => none
  | fuel + 1, s, mt, qs =>
    if ULONG_MAX < s then none
    else
      let mt1 := (mt + inc) % n
      if mt1 >>> 2032 = 2 then
        let se := s ^ e % n
        let cc := cl_1e * se % n
        match oracle_valid O cc with
        | none => none
        | some l =>
          if l = 0 then searchLoop O n e cl_1e inc fuel (s + 1) mt1 (qs ++ [cc])
          else some ⟨l, s, mt1, cc, qs ++ [cc]⟩
      else searchLoop O n e cl_1e inc fuel (s + 1) mt1 qs

/-- Model of `find_multiplier(dctx, mt, l_1, ctx, ss)` with at most `fuel` trials. -/
def find_multiplier (O : Oracle) (fuel c n e mt l_1 : Nat) : Option Found :=
  if n = 0 then none
  else
    let l_1e := l_1 ^ e % n
    let cl_1e := c * l_1e % n
    let inc := mt * l_1 % n
    searchLoop O n e cl_1e inc fuel 1 0 []

/-! ## `decrypt` -/

/-- The attack state: the context fields `c, n, e, s, mt` and the locals
`u, l, ss` of `decrypt`. -/
structure State where
  c : Nat
  n : Nat
  e : Nat
  S : Nat
  mt : Nat
  u : Int
  l : Int
  ss : Nat
deriving DecidableEq, Repr

/-- The loop `while (BN_is_bit_set(mt, u)) u++;`. -/
def skipSetBits (mt : Nat) : Nat → Int → Int
  | 0, u => u
  | fuel + 1, u => if BN_is_bit_set mt u then skipSetBits mt fuel (u + 1) else u

/-- Lines 155-159 of `decrypt`, from the value of `u` after
`u += BN_num_bits(ss) + 1`: skip the run of set bits, then one more. -/
def extend_boundary_past_carry (mt : Nat) (u : Int) : Int :=
  skipSetBits mt (BN_num_bits mt + 1) u + 1

/-- INIT: lines 129-132 of `decrypt`. -/
def decrypt_init (O : Oracle) (c n e S : Nat) : Option State :=
  match oracle_valid O c with
  | none => none
  | some l =>
    match oracle_guess O c l with
    | none => none
    | some mt => some ⟨c, n, e, S, mt ||| (1 <<< 2033), 2032, l, 0⟩

/-- One pass through the body of the `while (u > l)` loop of `decrypt`
(lines 140-169).  A negative shift count `l` or `u`, a failed inversion and a
search that does not return within `fuel` trials give `none`. -/
def search_iteration (O : Oracle) (fuel : Nat) (st : State) : Option State :=
  let u1 := st.u - st.l
  if st.l < 0 then none
  else
    match BN_mod_inverse (1 <<< st.l.toNat) st.n with
    | none => none
    | some l_1 =>
      match find_multiplier O fuel st.c st.n st.e st.mt l_1 with
      | none => none
      | some r =>
        let S1 := st.S * r.ss % st.n
        let S2 := S1 * l_1 % st.n
        let u2 := u1 + (BN_num_bits r.ss + 1)
        let u3 := extend_boundary_past_carry r.mt u2
        let u4 := if u3 < r.l then r.l else u3
        if u4 < 0 then none
        else
          let mt1 := (r.mt >>> u4.toNat) <<< u4.toNat
          match oracle_guess O r.c r.l with
          | none => none
          | some g => some ⟨r.c, st.n, st.e, S2, mt1 + g, u4, r.l, r.ss⟩

/-- The first `k` passes of the main loop, each entered with `u > l`. -/
def search_iterations (O : Oracle) (fuel : Nat) : Nat → State → Option State
  | 0, st => some st
  | k + 1, st =>
    if st.u > st.l then
      match search_iteration O fuel st with
      | none => none
      | some st1 => search_iterations O fuel k st1
    else none

/-- The main loop `while (u > l)` with at most `k` passes. -/
def decrypt_loop (O : Oracle) (fuel : Nat) : Nat → State → Option State
  | 0, _ => none
  | k + 1, st =>
    if st.u > st.l then
      match search_iteration O fuel st with
      | none => none
      | some st1 => decrypt_loop O fuel k st1
    else some st

/-- The value the specification assigns to the accumulator of
`find_multiplier` for a multiplier `s`: `s` times the increment, modulo `n`. -/
def scaledIncrement (n mt l_1 s : Nat) : Nat := s * (mt * l_1 % n) % n

/-- The accumulator of `find_multiplier` after `BN_zero(mt)` and `s` passes of
`BN_mod_add(mt, mt, inc, n)`. -/
def addedIncrement (n mt l_1 s : Nat) : Nat :=
  (fun acc => (acc + mt * l_1 % n) % n)^[s] 0

/-! ## Faithful oracles and the known-bits relation -/

/-- The oracle answers faithfully about the plaintext `dec x` of every
ciphertext `x` it is asked about: a non-zero byte count `b` is positive and
means that the plaintext carries `0x0002` above bit 2032 and a zero byte at
index `b`, and the guess query for `b` bytes returns its `b` low-order bytes. -/
def Faithful (O : Oracle) (dec : Nat → Nat) : Prop :=
  ∀ (x : Nat) (buf : List Nat), enc_key x = some buf →
    O.run_oracle_valid_multiple buf ≠ 0 →
      0 < O.run_oracle_valid_multiple buf ∧
      dec x >>> 2032 = 2 ∧
      (dec x >>> (8 * (O.run_oracle_valid_multiple buf).toNat)) % 256 = 0 ∧
      BN_bin2bn ((O.run_oracle_guess (O.run_oracle_valid_multiple buf) buf).take
          (O.run_oracle_valid_multiple buf).toNat)
        = dec x % 2 ^ (8 * (O.run_oracle_valid_multiple buf).toNat)

/-- The approximation `mt` of a state agrees with the true value `M` outside
the bit range `[l, u)` and is zero inside it. -/
def KnownBits (st : State) (M : Nat) : Prop :=
  0 ≤ st.l ∧ st.l ≤ st.u ∧
    st.mt = M / 2 ^ st.u.toNat * 2 ^ st.u.toNat + M % 2 ^ st.l.toNat

/-! ## A plaintext-revealing oracle

With public exponent 1 a ciphertext is its own plaintext.  `plainOracle` is
the padding oracle for that case: it accepts `00 02 ... 00 k` blocks with a
key `k` of at most 24 bytes. -/

/-- Largest `b` in `1..bound` whose byte `b` of `x` is zero, or 0 if there is none. -/
def delimiterAt (x : Nat) : Nat → Nat
  | 0 => 0
  | b + 1 => if (x >>> (8 * (b + 1))) % 256 = 0 then b + 1 else delimiterAt x b

/-- The oracle that reads the plaintext off the request buffer. -/
def plainOracle : Oracle where
  run_oracle_valid_multiple := fun buf =>
    if BN_bin2bn buf >>> 2032 = 2 then (delimiterAt (BN_bin2bn buf) 24 : Nat) else 0
  run_oracle_guess := fun bytesize buf =>
    bn2binAux bytesize.toNat (BN_bin2bn buf % 2 ^ (8 * bytesize.toNat)) []

/-- An odd modulus just above the padded plaintexts. -/
def toyModulus : Nat := 3 * 2 ^ 2032 + 1

/-- A padded plaintext below `toyModulus`: the marker `0x0002`, zero padding
and seven 25-byte blocks `00 k` with the 24-byte key `k = 5^67`. -/
def toyPlaintext : Nat := 2 ^ 2033 + 5 ^ 67 * ((2 ^ 1400 - 1) / (2 ^ 200 - 1))

/-- The state of `decrypt` after INIT on `toyPlaintext` with `plainOracle`. -/
def toyInit : State := ⟨toyPlaintext, toyModulus, 1, 1, 2 ^ 2033 + 5 ^ 67, 2032, 200, 0⟩

/-- The state of `decrypt` after INIT on the plaintext `2^2033 + 1`. -/
def onesInit : State := ⟨2 ^ 2033 + 1, toyModulus, 1, 1, 2 ^ 2033 + 1, 2032, 200, 0⟩

/-- The state one SEARCH iteration after `onesInit`. -/
def onesNext : State :=
  ⟨3 * 2 ^ 2032 - 2 ^ 1832 + 1, toyModulus, 1, 3 * 2 ^ 2032 + 1 - 3 * 2 ^ 1832,
    2 ^ 2033 + 1, 2033, 200, 1⟩

/-- A ciphertext (for exponent 1) whose plaintext lacks the marker but whose
double carries it. -/
def toyCipher : Nat := 2 ^ 2032 + 2 ^ 2030 + 7

/-- An approximation that keeps the marker both once and twice modulo `toyModulus`. -/
def toyApprox : Nat := 2 ^ 2033 + 2 ^ 2031 + 2 ^ 2030

/-- An oracle that certifies `b` bytes for every request and writes no bytes. -/
def constOracle (b : Int) : Oracle where
  run_oracle_valid_multiple := fun _ => b
  run_oracle_guess := fun _ _ => []

set_option maxRecDepth 100000
set_option exponentiation.threshold 5000

/-! ## Lemmas on the big-number primitives -/

theorem inverseLoop_spec (a n : Nat) : ∀ (fuel r0 r1 : Nat) (t0 t1 : Int), r1 < fuel →
    (r0 : Int) ≡ t0 * a [ZMOD n] → (r1 : Int) ≡ t1 * a [ZMOD n] →
    (inverseLoop fuel r0 r1 t0 t1).1 = Nat.gcd r0 r1 ∧
      ((inverseLoop fuel r0 r1 t0 t1).1 : Int) ≡ (inverseLoop fuel r0 r1 t0 t1).2 * a [ZMOD n] := by
  intro fuel
  induction fuel with
  | zero => intro r0 r1 t0 t1 h; omega
  | succ f ih =>
    intro r0 r1 t0 t1 hlt h0 h1
    unfold inverseLoop
    by_cases hr : r1 = 0
    · subst hr; simpa using h0
    · rw [if_neg hr]
      have hpos : 0 < r1 := Nat.pos_of_ne_zero hr
      have hmod : r0 % r1 < f := by
        have := Nat.mod_lt r0 hpos
        omega
      have hinv : ((r0 % r1 : Nat) : Int) ≡ (t0 - (r0 / r1 : Nat) * t1) * a [ZMOD n] := by
        have e1 : ((r0 % r1 : Nat) : Int) = r0 - (r0 / r1 : Nat) * r1 := by
          have := Nat.div_add_mod r0 r1
          push_cast
          have h2 : (r0 : Int) = r1 * (r0 / r1) + r0 % r1 := by exact_mod_cast this.symm
          linarith
        rw [e1, sub_mul, mul_assoc]
        exact Int.ModEq.sub h0 (Int.ModEq.mul_left _ h1)
      obtain ⟨g1, g2⟩ := ih r1 (r0 % r1) t1 (t0 - (r0 / r1 : Nat) * t1) hmod h1 hinv
      refine ⟨?_, g2⟩
      rw [g1, Nat.gcd_comm r0 r1, Nat.gcd_rec r1 r0, Nat.gcd_comm]

/-- Whatever `BN_mod_inverse` returns is an inverse, reduced modulo `n`. -/
theorem BN_mod_inverse_sound (a n x : Nat) (h : BN_mod_inverse a n = some x) :
    x < n ∧ x * a % n = 1 % n := by
  unfold BN_mod_inverse at h
  by_cases hn : n = 0
  · simp [hn] at h
  · rw [if_neg hn] at h
    have hpos : 0 < n := Nat.pos_of_ne_zero hn
    have h0 : ((n : Nat) : Int) ≡ (0 : Int) * a [ZMOD n] := by simp [Int.ModEq]
    have h1 : ((a % n : Nat) : Int) ≡ (1 : Int) * a [ZMOD n] := by simp [Int.ModEq]
    have hlt : a % n < n + 1 := by
      have := Nat.mod_lt a hpos
      omega
    obtain ⟨_, g2⟩ := inverseLoop_spec a n (n + 1) n (a % n) 0 1 hlt h0 h1
    simp only at h
    by_cases hg : (inverseLoop (n + 1) n (a % n) 0 1).1 = 1
    · rw [if_pos hg] at h
      simp only [Option.some.injEq] at h
      rw [hg] at g2
      have hnpos : (0 : Int) < n := by exact_mod_cast hpos
      have h2 := Int.emod_nonneg (inverseLoop (n + 1) n (a % n) 0 1).2 (ne_of_gt hnpos)
      have h3 := Int.emod_lt_of_pos (inverseLoop (n + 1) n (a % n) 0 1).2 hnpos
      subst h
      refine ⟨by omega, ?_⟩
      have h4 : ((((inverseLoop (n + 1) n (a % n) 0 1).2 % (n : Int)).toNat * a % n : Nat) : Int)
          = ((1 % n : Nat) : Int) := by
        push_cast
        rw [Int.toNat_of_nonneg h2]
        have h5 : (inverseLoop (n + 1) n (a % n) 0 1).2 % (n : Int) * a ≡ 1 [ZMOD n] :=
          (Int.ModEq.mul_right _ (Int.mod_modEq _ _)).trans g2.symm
        exact h5
      exact_mod_cast h4
    · rw [if_neg hg] at h
      exact absurd h (by simp)

/-- Every number coprime to the modulus gets an inverse from `BN_mod_inverse`. -/
theorem BN_mod_inverse_coprime (a n : Nat) (hn : 1 < n) (hc : Nat.Coprime a n) :
    ∃ x, BN_mod_inverse a n = some x ∧ x < n ∧ x * a % n = 1 := by
  have h0 : ((n : Nat) : Int) ≡ (0 : Int) * a [ZMOD n] := by simp [Int.ModEq]
  have h1 : ((a % n : Nat) : Int) ≡ (1 : Int) * a [ZMOD n] := by simp [Int.ModEq]
  have hlt : a % n < n + 1 := by
    have := Nat.mod_lt a (by omega : 0 < n)
    omega
  obtain ⟨g1, _⟩ := inverseLoop_spec a n (n + 1) n (a % n) 0 1 hlt h0 h1
  have hg : (inverseLoop (n + 1) n (a % n) 0 1).1 = 1 := by
    rw [g1, Nat.gcd_comm, ← Nat.gcd_rec, Nat.gcd_comm]
    exact hc
  have hsome : BN_mod_inverse a n
      = some ((inverseLoop (n + 1) n (a % n) 0 1).2 % (n : Int)).toNat := by
    unfold BN_mod_inverse
    rw [if_neg (by omega)]
    simp only [hg, if_true]
  obtain ⟨b1, b2⟩ := BN_mod_inverse_sound a n _ hsome
  exact ⟨_, hsome, b1, by rw [b2, Nat.mod_eq_of_lt hn]⟩

/-- The halving count is the binary length: `a < 2^bits`, tight for `a ≠ 0`. -/
theorem numBitsAux_spec : ∀ (fuel a : Nat), a ≤ fuel →
    a < 2 ^ numBitsAux fuel a ∧ (a ≠ 0 → 2 ^ (numBitsAux fuel a - 1) ≤ a) := by
  intro fuel
  induction fuel with
  | zero =>
    intro a ha
    have : a = 0 := by omega
    subst this
    simp [numBitsAux]
  | succ f ih =>
    intro a ha
    unfold numBitsAux
    by_cases h0 : a = 0
    · subst h0; simp
    · rw [if_neg h0]
      have hle : a / 2 ≤ f := by omega
      obtain ⟨i1, i2⟩ := ih (a / 2) hle
      constructor
      · rw [pow_succ]; omega
      · intro _
        simp only [Nat.add_sub_cancel]
        by_cases h1 : a / 2 = 0
        · have : numBitsAux f (a / 2) = 0 := by
            rw [h1]; cases f <;> simp [numBitsAux]
          rw [this]; simp; omega
        · have h2 := i2 h1
          obtain ⟨k, hk⟩ : ∃ k, numBitsAux f (a / 2) = k + 1 := by
            cases hh : numBitsAux f (a / 2) with
            | zero => rw [hh] at i1; simp at i1; omega
            | succ k => exact ⟨k, rfl⟩
          rw [hk] at h2 ⊢
          simp only [Nat.add_sub_cancel] at h2
          rw [pow_succ]; omega

theorem BN_num_bits_lt (a : Nat) : a < 2 ^ BN_num_bits a :=
  (numBitsAux_spec a a (le_refl a)).1

theorem BN_num_bits_le (a k : Nat) (h : a < 2 ^ k) : BN_num_bits a ≤ k := by
  by_cases h0 : a = 0
  · subst h0; simp [BN_num_bits, numBitsAux]
  · have h1 := (numBitsAux_spec a a (le_refl a)).2 h0
    by_contra hk
    have h2 : k ≤ BN_num_bits a - 1 := by omega
    have h3 : 2 ^ k ≤ 2 ^ (BN_num_bits a - 1) := Nat.pow_le_pow_right (by norm_num) h2
    unfold BN_num_bits at h3
    omega

/-! ## Lemmas on the search loop -/

theorem searchLoop_spec (O : Oracle) (n e cl inc : Nat) :
    ∀ (fuel s mt : Nat) (qs : List Nat) (r : Found), 1 ≤ s → mt = (s - 1) * inc % n →
      searchLoop O n e cl inc fuel s mt qs = some r →
      s ≤ r.ss ∧ r.ss ≤ ULONG_MAX ∧ r.ss < s + fuel ∧ r.mt = r.ss * inc % n ∧
      r.mt >>> 2032 = 2 ∧ r.c = cl * (r.ss ^ e % n) % n ∧
      oracle_valid O r.c = some r.l ∧ r.l ≠ 0 ∧
      (∀ j, s ≤ j → j < r.ss → (j * inc % n) >>> 2032 = 2 →
        oracle_valid O (cl * (j ^ e % n) % n) = some 0) ∧
      r.queries = qs ++ ((List.range' s (r.ss + 1 - s)).filter
        (fun j => decide ((j * inc % n) >>> 2032 = 2))).map
        (fun j => cl * (j ^ e % n) % n) := by
  intro fuel
  induction fuel with
  | zero => intro s mt qs r _ _ h; simp [searchLoop] at h
  | succ f ih =>
    intro s mt qs r hs hmt h
    have hacc : (mt + inc) % n = s * inc % n := by
      rw [hmt, Nat.mod_add_mod]
      congr 1
      obtain ⟨k, rfl⟩ : ∃ k, s = k + 1 := ⟨s - 1, by omega⟩
      simp [Nat.succ_mul]
    have hacc1 : (s + 1 - 1) * inc % n = (mt + inc) % n := by
      rw [hacc]; simp
    unfold searchLoop at h
    by_cases hov : ULONG_MAX < s
    · simp [hov] at h
    · rw [if_neg hov] at h
      simp only at h
      by_cases hm : ((mt + inc) % n) >>> 2032 = 2
      · rw [if_pos hm] at h
        cases hq : oracle_valid O (cl * (s ^ e % n) % n) with
        | none => rw [hq] at h; simp at h
        | some l =>
          rw [hq] at h
          simp only at h
          by_cases hl : l = 0
          · rw [if_pos hl] at h
            obtain ⟨a1, a2, a3, a4, a5, a6, a7, a8, a9, a10⟩ :=
              ih (s + 1) _ _ r (by omega) hacc1.symm h
            refine ⟨by omega, a2, by omega, a4, a5, a6, a7, a8, ?_, ?_⟩
            · intro j hj1 hj2 hj3
              by_cases hjs : j = s
              · subst hjs; rw [hq, hl]
              · exact a9 j (by omega) hj2 hj3
            · rw [a10]
              have hr : r.ss + 1 - s = (r.ss + 1 - (s + 1)) + 1 := by omega
              rw [hr, List.range'_succ]
              have hd : decide ((s * inc % n) >>> 2032 = 2) = true := by
                rw [← hacc]; simpa using hm
              simp [List.filter_cons, hd]
          · rw [if_neg hl] at h
            simp only [Option.some.injEq] at h
            subst h
            refine ⟨le_refl _, by simpa using hov, Nat.lt_add_of_pos_right (Nat.succ_pos f),
              hacc, hm, rfl, hq, hl, ?_, ?_⟩
            · intro j hj1 hj2
              exact absurd hj2 (not_lt.mpr hj1)
            · have hd : decide ((s * inc % n) >>> 2032 = 2) = true := by
                rw [← hacc]; simpa using hm
              simp [List.filter_cons, hd]
      · rw [if_neg hm] at h
        obtain ⟨a1, a2, a3, a4, a5, a6, a7, a8, a9, a10⟩ :=
          ih (s + 1) _ _ r (by omega) hacc1.symm h
        refine ⟨by omega, a2, by omega, a4, a5, a6, a7, a8, ?_, ?_⟩
        · intro j hj1 hj2 hj3
          by_cases hjs : j = s
          · subst hjs; rw [← hacc] at hj3; exact absurd hj3 hm
          · exact a9 j (by omega) hj2 hj3
        · rw [a10]
          have hr : r.ss + 1 - s = (r.ss + 1 - (s + 1)) + 1 := by omega
          rw [hr, List.range'_succ]
          have hd : decide ((s * inc % n) >>> 2032 = 2) = false := by
            rw [← hacc]; simpa using hm
          simp [List.filter_cons, hd]

/-- Forging formula: the ciphertext built by `find_multiplier` for a
multiplier `s` is `c * l_1^e * s^e mod n`. -/
theorem forged_eq (c n e l_1 s : Nat) :
    c * (l_1 ^ e % n) % n * (s ^ e % n) % n = c * l_1 ^ e * s ^ e % n := by
  rw [Nat.mul_mod_mod, Nat.mul_mod_mod c, Nat.mod_mul_mod]

/-! ## Lemmas on the request buffer -/

theorem foldl_bn2binAux : ∀ (k a : Nat) (acc : List Nat) (init : Nat),
    (bn2binAux k a acc).foldl (fun x b => x * 256 + b % 256) init
      = acc.foldl (fun x b => x * 256 + b % 256) (init * 256 ^ k + a % 256 ^ k) := by
  intro k
  induction k with
  | zero => intro a acc init; simp [bn2binAux, Nat.mod_one]
  | succ k ih =>
    intro a acc init
    unfold bn2binAux
    rw [ih]
    simp only [List.foldl_cons]
    congr 1
    have h1 : a % 256 ^ (k + 1) = a % 256 + 256 * (a / 256 % 256 ^ k) := by
      rw [pow_succ, mul_comm (256 ^ k) 256, Nat.mod_mul]
    rw [h1, Nat.mod_mod, pow_succ]
    ring

theorem length_bn2binAux : ∀ (k a : Nat) (acc : List Nat),
    (bn2binAux k a acc).length = k + acc.length := by
  intro k
  induction k with
  | zero => intro a acc; simp [bn2binAux]
  | succ k ih =>
    intro a acc
    unfold bn2binAux
    rw [ih]
    simp
    omega

theorem BN_bin2bn_replicate_append (z : Nat) (l : List Nat) :
    BN_bin2bn (List.replicate z 0 ++ l) = BN_bin2bn l := by
  unfold BN_bin2bn
  rw [List.foldl_append]
  congr 1
  induction z with
  | zero => simp
  | succ z ih => simpa [List.replicate_succ] using ih

theorem lt_pow_BN_num_bytes (a : Nat) : a < 256 ^ BN_num_bytes a := by
  have h1 := BN_num_bits_lt a
  have h2 : (256 : Nat) ^ BN_num_bytes a = 2 ^ (8 * BN_num_bytes a) := by
    rw [pow_mul]; norm_num
  rw [h2]
  refine lt_of_lt_of_le h1 (Nat.pow_le_pow_right (by norm_num) ?_)
  unfold BN_num_bytes
  omega

theorem BN_bin2bn_bn2bin (a : Nat) : BN_bin2bn (BN_bn2bin a) = a := by
  unfold BN_bin2bn BN_bn2bin
  rw [foldl_bn2binAux]
  simp [Nat.mod_eq_of_lt (lt_pow_BN_num_bytes a)]

/-- The request buffer exists for every number below `2^2048`. -/
theorem enc_key_isSome (c : Nat) (hc : c < 2 ^ 2048) : ∃ buf, enc_key c = some buf := by
  have h1 := BN_num_bits_le c 2048 hc
  have h2 : BN_num_bytes c ≤ 256 := by unfold BN_num_bytes; omega
  exact ⟨_, by unfold enc_key; rw [if_pos h2]⟩

/-- The request buffer has 256 bytes and reads back as the ciphertext. -/
theorem enc_key_spec (c : Nat) (buf : List Nat) (h : enc_key c = some buf) :
    buf.length = 256 ∧ BN_bin2bn buf = c ∧ c < 2 ^ 2048 := by
  unfold enc_key at h
  by_cases h2 : BN_num_bytes c ≤ 256
  · rw [if_pos h2] at h
    simp only [Option.some.injEq] at h
    subst h
    refine ⟨?_, ?_, ?_⟩
    · simp [BN_bn2bin, length_bn2binAux]; omega
    · rw [BN_bin2bn_replicate_append, BN_bin2bn_bn2bin]
    · have h3 := lt_pow_BN_num_bytes c
      have h4 : (256 : Nat) ^ BN_num_bytes c ≤ 256 ^ 256 := Nat.pow_le_pow_right (by norm_num) h2
      have h5 : (256 : Nat) ^ 256 = 2 ^ 2048 := by norm_num
      omega
  · rw [if_neg h2] at h
    exact absurd h (by simp)

/-! ## Lemmas on the oracle wrappers -/

theorem oracle_valid_spec (O : Oracle) (c : Nat) (l : Int) (h : oracle_valid O c = some l) :
    ∃ buf, enc_key c = some buf ∧
      ((O.run_oracle_valid_multiple buf = 0 ∧ l = 0) ∨
       (O.run_oracle_valid_multiple buf ≠ 0 ∧ l = (O.run_oracle_valid_multiple buf + 1) * 8 ∧
          INT_MIN ≤ l ∧ l ≤ INT_MAX)) := by
  unfold oracle_valid at h
  cases hb : enc_key c with
  | none => rw [hb] at h; simp at h
  | some buf =>
    rw [hb] at h
    simp only at h
    refine ⟨buf, rfl, ?_⟩
    by_cases h0 : O.run_oracle_valid_multiple buf = 0
    · rw [if_pos h0] at h
      simp only [Option.some.injEq] at h
      exact Or.inl ⟨h0, h.symm⟩
    · rw [if_neg h0] at h
      by_cases h1 : (O.run_oracle_valid_multiple buf + 1) * 8 < INT_MIN ∨
          INT_MAX < (O.run_oracle_valid_multiple buf + 1) * 8
      · rw [if_pos h1] at h; simp at h
      · rw [if_neg h1] at h
        simp only [Option.some.injEq] at h
        subst h
        exact Or.inr ⟨h0, rfl, by omega, by omega⟩

theorem oracle_guess_spec (O : Oracle) (c : Nat) (bsize : Int) (g : Nat)
    (h : oracle_guess O c bsize = some g) :
    ∃ buf, enc_key c = some buf ∧ 0 ≤ Int.tdiv bsize 8 - 1 ∧ Int.tdiv bsize 8 - 1 ≤ 24 ∧
      g = BN_bin2bn ((O.run_oracle_guess (Int.tdiv bsize 8 - 1) buf).take
        (Int.tdiv bsize 8 - 1).toNat) := by
  unfold oracle_guess at h
  cases hb : enc_key c with
  | none => rw [hb] at h; simp at h
  | some buf =>
    rw [hb] at h
    simp only at h
    refine ⟨buf, rfl, ?_⟩
    by_cases h1 : Int.tdiv bsize 8 - 1 < 0 ∨ 24 < Int.tdiv bsize 8 - 1 ∨
        (O.run_oracle_guess (Int.tdiv bsize 8 - 1) buf).length < (Int.tdiv bsize 8 - 1).toNat
    · rw [if_pos h1] at h; simp at h
    · rw [if_neg h1] at h
      simp only [Option.some.injEq] at h
      refine ⟨by omega, by omega, h.symm⟩

/-! ## `find_multiplier`: what a returned result satisfies -/

theorem find_multiplier_spec (O : Oracle) (fuel c n e mt l_1 : Nat) (r : Found)
    (h : find_multiplier O fuel c n e mt l_1 = some r) :
    n ≠ 0 ∧ 1 ≤ r.ss ∧ r.ss ≤ ULONG_MAX ∧ r.ss ≤ fuel ∧
    r.mt = r.ss * (mt * l_1 % n) % n ∧ r.mt >>> 2032 = 2 ∧
    r.c = c * l_1 ^ e * r.ss ^ e % n ∧ oracle_valid O r.c = some r.l ∧ r.l ≠ 0 ∧
    (∀ j, 1 ≤ j → j < r.ss → (j * (mt * l_1 % n) % n) >>> 2032 = 2 →
      oracle_valid O (c * l_1 ^ e * j ^ e % n) = some 0) ∧
    r.queries = ((List.range' 1 r.ss).filter
      (fun j => decide ((j * (mt * l_1 % n) % n) >>> 2032 = 2))).map
      (fun j => c * l_1 ^ e * j ^ e % n) := by
  unfold find_multiplier at h
  by_cases hn : n = 0
  · simp [hn] at h
  · rw [if_neg hn] at h
    simp only at h
    obtain ⟨a1, a2, a3, a4, a5, a6, a7, a8, a9, a10⟩ :=
      searchLoop_spec O n e (c * (l_1 ^ e % n) % n) (mt * l_1 % n) fuel 1 0 [] r (le_refl 1)
        (by simp) h
    refine ⟨hn, a1, a2, by omega, a4, a5, ?_, a7, a8, ?_, ?_⟩
    · rw [a6, forged_eq]
    · intro j hj1 hj2 hj3
      have := a9 j hj1 hj2 hj3
      rwa [forged_eq] at this
    · rw [a10]
      simp only [List.nil_append, Nat.add_sub_cancel]
      congr 1
      funext j
      rw [forged_eq]

/-! ## Claims on `oracle_valid`, the inversion step and `find_multiplier` -/

/-- C9: `oracle_valid` turns the oracle's byte count `b` into a bit count: it
returns 0 when `b = 0` and `(b + 1) * 8` otherwise; for `b ≥ 0` the result is 0
exactly when `b = 0`, and a non-zero result is a multiple of 8 that is at least 16. -/
theorem oracle_valid_bit_count (O : Oracle) (c : Nat) (buf : List Nat)
    (hbuf : enc_key c = some buf)
    (hrange : INT_MIN ≤ (O.run_oracle_valid_multiple buf + 1) * 8 ∧
      (O.run_oracle_valid_multiple buf + 1) * 8 ≤ INT_MAX) :
    oracle_valid O c = some (if O.run_oracle_valid_multiple buf = 0 then 0
      else (O.run_oracle_valid_multiple buf + 1) * 8) ∧
    (0 ≤ O.run_oracle_valid_multiple buf →
      (oracle_valid O c = some 0 ↔ O.run_oracle_valid_multiple buf = 0)) ∧
    (∀ r, 0 ≤ O.run_oracle_valid_multiple buf → oracle_valid O c = some r → r ≠ 0 →
      (8 : Int) ∣ r ∧ 16 ≤ r) := by
  have hval : oracle_valid O c = some (if O.run_oracle_valid_multiple buf = 0 then 0
      else (O.run_oracle_valid_multiple buf + 1) * 8) := by
    unfold oracle_valid
    rw [hbuf]
    simp only
    by_cases h0 : O.run_oracle_valid_multiple buf = 0
    · simp [h0]
    · rw [if_neg h0, if_neg h0, if_neg (by omega)]
  refine ⟨hval, ?_, ?_⟩
  · intro hb
    rw [hval]
    by_cases h0 : O.run_oracle_valid_multiple buf = 0
    · simp [h0]
    · rw [if_neg h0]
      constructor
      · intro h1
        simp only [Option.some.injEq] at h1
        omega
      · intro h1
        exact absurd h1 h0
  · intro r hb hr hr0
    rw [hval] at hr
    by_cases h0 : O.run_oracle_valid_multiple buf = 0
    · simp [h0] at hr; exact absurd hr.symm hr0
    · simp only [if_neg h0, Option.some.injEq] at hr
      subst hr
      exact ⟨Dvd.intro_left _ rfl, by omega⟩

theorem oracle_valid_bit_count_witness :
    enc_key 7 = some (List.replicate 255 0 ++ [7]) ∧
    oracle_valid (constOracle 5) 7 = some 48 ∧
    (∀ r, (0 : Int) ≤ 5 → oracle_valid (constOracle 5) 7 = some r → r ≠ 0 →
      (8 : Int) ∣ r ∧ 16 ≤ r) :=
  have h := oracle_valid_bit_count (constOracle 5) 7 (List.replicate 255 0 ++ [7])
    (by decide) (by decide)
  ⟨by decide, h.1, h.2.2⟩

/-- C10: for an odd modulus `n > 1` and `l ≥ 0` the inversion of `2^l` in
`decrypt` succeeds, and the `l_1` it yields satisfies `l_1 * 2^l mod n = 1`. -/
theorem inversion_step_succeeds (n l : Nat) (hodd : Odd n) (hn : 1 < n) :
    ∃ l_1, BN_mod_inverse (1 <<< l) n = some l_1 ∧ l_1 * 2 ^ l % n = 1 := by
  have hc : Nat.Coprime (2 ^ l) n :=
    Nat.Coprime.pow_left _ (Nat.coprime_two_left.mpr hodd)
  obtain ⟨x, h1, _, h3⟩ := BN_mod_inverse_coprime (2 ^ l) n hn hc
  exact ⟨x, by rw [Nat.one_shiftLeft]; exact h1, h3⟩

theorem inversion_step_succeeds_witness :
    Odd toyModulus ∧ 1 < toyModulus ∧
    ∃ l_1, BN_mod_inverse (1 <<< 200) toyModulus = some l_1 ∧
      l_1 * 2 ^ 200 % toyModulus = 1 :=
  have hodd : Odd toyModulus := Nat.odd_iff.mpr (by decide!)
  have hn : 1 < toyModulus := by decide!
  ⟨hodd, hn, inversion_step_succeeds toyModulus 200 hodd hn⟩

/-- C2: when the search stops, the multiplier written to `ss` is the least
`s ≥ 1` for which both `(s * (mt*l_1 mod n) mod n) >> 2032 = 0x0002` and
`oracle_valid(c * l_1^e * s^e mod n)` is non-zero. -/
theorem find_multiplier_least (O : Oracle) (fuel c n e mt l_1 : Nat) (r : Found)
    (h : find_multiplier O fuel c n e mt l_1 = some r) :
    1 ≤ r.ss ∧ (r.ss * (mt * l_1 % n) % n) >>> 2032 = 2 ∧
    (∃ l, oracle_valid O (c * l_1 ^ e * r.ss ^ e % n) = some l ∧ l ≠ 0) ∧
    ∀ s, 1 ≤ s → s < r.ss →
      ¬ ((s * (mt * l_1 % n) % n) >>> 2032 = 2 ∧
         ∃ l, oracle_valid O (c * l_1 ^ e * s ^ e % n) = some l ∧ l ≠ 0) := by
  obtain ⟨_, a1, _, _, a4, a5, a6, a7, a8, a9, _⟩ := find_multiplier_spec O fuel c n e mt l_1 r h
  refine ⟨a1, by rw [← a4]; exact a5, ⟨r.l, by rw [← a6]; exact a7, a8⟩, ?_⟩
  rintro s hs1 hs2 ⟨hm, l, hl1, hl2⟩
  have := a9 s hs1 hs2 hm
  rw [this] at hl1
  exact hl2 (by simpa using hl1.symm)

theorem find_multiplier_least_witness :
    find_multiplier plainOracle 5 toyCipher toyModulus 1 toyApprox 1
      = some ⟨200, 2, 5 * 2 ^ 2031 - 1, 2 ^ 2033 + 2 ^ 2031 + 14,
          [toyCipher, 2 ^ 2033 + 2 ^ 2031 + 14]⟩ ∧
    (2 * (toyApprox * 1 % toyModulus) % toyModulus) >>> 2032 = 2 ∧
    ¬ ((1 * (toyApprox * 1 % toyModulus) % toyModulus) >>> 2032 = 2 ∧
       ∃ l, oracle_valid plainOracle (toyCipher * 1 ^ 1 * 1 ^ 1 % toyModulus) = some l ∧ l ≠ 0) :=
  have hrun : find_multiplier plainOracle 5 toyCipher toyModulus 1 toyApprox 1
      = some ⟨200, 2, 5 * 2 ^ 2031 - 1, 2 ^ 2033 + 2 ^ 2031 + 14,
          [toyCipher, 2 ^ 2033 + 2 ^ 2031 + 14]⟩ := by decide!
  have h := find_multiplier_least plainOracle 5 toyCipher toyModulus 1 toyApprox 1 _ hrun
  ⟨hrun, h.2.1, h.2.2.2 1 (le_refl 1) (Nat.lt_succ_self 1)⟩

/-- C3: `find_multiplier` queries the oracle only for candidates that pass the
local marker check: the ciphertexts passed to `oracle_valid`, in order, are
exactly `c * l_1^e * s^e mod n` for the `s = 1, ..., ss` whose accumulated value
`s * (mt*l_1 mod n) mod n` has `0x0002` above bit 2032, one query for each. -/
theorem find_multiplier_queries (O : Oracle) (fuel c n e mt l_1 : Nat) (r : Found)
    (h : find_multiplier O fuel c n e mt l_1 = some r) :
    r.queries = ((List.range' 1 r.ss).filter
      (fun s => decide ((s * (mt * l_1 % n) % n) >>> 2032 = 2))).map
      (fun s => c * l_1 ^ e * s ^ e % n) ∧
    ∀ q ∈ r.queries, ∃ s, 1 ≤ s ∧ s ≤ r.ss ∧ (s * (mt * l_1 % n) % n) >>> 2032 = 2 ∧
      q = c * l_1 ^ e * s ^ e % n := by
  obtain ⟨_, _, _, _, _, _, _, _, _, _, a10⟩ := find_multiplier_spec O fuel c n e mt l_1 r h
  refine ⟨a10, ?_⟩
  intro q hq
  rw [a10, List.mem_map] at hq
  obtain ⟨s, hs, rfl⟩ := hq
  rw [List.mem_filter, List.mem_range'_1] at hs
  exact ⟨s, hs.1.1, by omega, by simpa using hs.2, rfl⟩

theorem find_multiplier_queries_witness :
    find_multiplier plainOracle 3 toyCipher toyModulus 1 toyApprox 1
      = some ⟨200, 2, 5 * 2 ^ 2031 - 1, 2 ^ 2033 + 2 ^ 2031 + 14,
          [toyCipher, 2 ^ 2033 + 2 ^ 2031 + 14]⟩ ∧
    ∀ q ∈ [toyCipher, 2 ^ 2033 + 2 ^ 2031 + 14], ∃ s, 1 ≤ s ∧ s ≤ 2 ∧
      (s * (toyApprox * 1 % toyModulus) % toyModulus) >>> 2032 = 2 ∧
      q = toyCipher * 1 ^ 1 * s ^ 1 % toyModulus :=
  have hrun : find_multiplier plainOracle 3 toyCipher toyModulus 1 toyApprox 1
      = some ⟨200, 2, 5 * 2 ^ 2031 - 1, 2 ^ 2033 + 2 ^ 2031 + 14,
          [toyCipher, 2 ^ 2033 + 2 ^ 2031 + 14]⟩ := by decide!
  ⟨hrun, (find_multiplier_queries plainOracle 3 toyCipher toyModulus 1 toyApprox 1 _ hrun).2⟩

/-- C4: when `find_multiplier` returns `l` with multiplier `s`, the context
ciphertext has become `c * l_1^e * s^e mod n = c * (s*l_1)^e mod n`, `l` is
`oracle_valid` of that ciphertext, and `l > 0` when the oracle's byte counts are
non-negative. -/
theorem find_multiplier_post (O : Oracle) (fuel c n e mt l_1 : Nat) (r : Found)
    (h : find_multiplier O fuel c n e mt l_1 = some r) :
    r.c = c * l_1 ^ e * r.ss ^ e % n ∧ r.c = c * (r.ss * l_1) ^ e % n ∧
    oracle_valid O r.c = some r.l ∧
    ((∀ buf, 0 ≤ O.run_oracle_valid_multiple buf) → 0 < r.l) := by
  obtain ⟨_, _, _, _, _, _, a6, a7, a8, _, _⟩ := find_multiplier_spec O fuel c n e mt l_1 r h
  refine ⟨a6, ?_, a7, ?_⟩
  · rw [a6, mul_pow, mul_comm (r.ss ^ e), mul_assoc]
  · intro hpos
    obtain ⟨buf, _, hcase⟩ := oracle_valid_spec O r.c r.l a7
    rcases hcase with ⟨_, h0⟩ | ⟨_, h1, _, _⟩
    · exact absurd h0 a8
    · have := hpos buf
      omega

theorem find_multiplier_post_witness :
    find_multiplier plainOracle 2 toyCipher toyModulus 1 toyApprox 1
      = some ⟨200, 2, 5 * 2 ^ 2031 - 1, 2 ^ 2033 + 2 ^ 2031 + 14,
          [toyCipher, 2 ^ 2033 + 2 ^ 2031 + 14]⟩ ∧
    2 ^ 2033 + 2 ^ 2031 + 14 = toyCipher * (2 * 1) ^ 1 % toyModulus ∧
    oracle_valid plainOracle (2 ^ 2033 + 2 ^ 2031 + 14) = some 200 :=
  have hrun : find_multiplier plainOracle 2 toyCipher toyModulus 1 toyApprox 1
      = some ⟨200, 2, 5 * 2 ^ 2031 - 1, 2 ^ 2033 + 2 ^ 2031 + 14,
          [toyCipher, 2 ^ 2033 + 2 ^ 2031 + 14]⟩ := by decide!
  have h := find_multiplier_post plainOracle 2 toyCipher toyModulus 1 toyApprox 1 _ hrun
  ⟨hrun, h.2.1, h.2.2.1⟩

/-! ## Lemmas on the carry loop and on one SEARCH iteration -/

theorem skipSetBits_add (mt : Nat) : ∀ (fuel : Nat) (u : Int),
    ∃ k : Nat, skipSetBits mt fuel u = u + k := by
  intro fuel
  induction fuel with
  | zero => intro u; exact ⟨0, by simp [skipSetBits]⟩
  | succ f ih =>
    intro u
    unfold skipSetBits
    by_cases hb : BN_is_bit_set mt u = true
    · rw [if_pos hb]
      obtain ⟨k, hk⟩ := ih (u + 1)
      exact ⟨k + 1, by rw [hk]; push_cast; ring⟩
    · rw [if_neg hb]
      exact ⟨0, by simp⟩

theorem skipSetBits_clear (mt : Nat) : ∀ (fuel : Nat) (u : Int), 1 ≤ fuel →
    (0 ≤ u → mt < 2 ^ (u.toNat + fuel - 1)) →
    BN_is_bit_set mt (skipSetBits mt fuel u) = false := by
  intro fuel
  induction fuel with
  | zero => intro u h; omega
  | succ f ih =>
    intro u _ hlt
    unfold skipSetBits
    by_cases hb : BN_is_bit_set mt u = true
    · rw [if_pos hb]
      have hu : 0 ≤ u := by
        unfold BN_is_bit_set at hb
        simp only [Bool.and_eq_true, decide_eq_true_eq] at hb
        exact hb.1
      have hbit : mt.testBit u.toNat = true := by
        unfold BN_is_bit_set at hb
        simp only [Bool.and_eq_true, decide_eq_true_eq] at hb
        exact hb.2
      have hbound := hlt hu
      have hf : 1 ≤ f := by
        by_contra hf0
        have hf00 : f = 0 := by omega
        subst hf00
        simp only [Nat.add_sub_cancel, Nat.zero_add] at hbound
        rw [Nat.testBit_lt_two_pow hbound] at hbit
        exact absurd hbit (by simp)
      apply ih (u + 1) hf
      intro _
      have e1 : (u + 1).toNat + f - 1 = u.toNat + (f + 1) - 1 := by omega
      rw [e1]
      exact hbound
    · rw [if_neg hb]
      simpa using hb

theorem skipSetBits_run (mt : Nat) : ∀ (fuel : Nat) (u : Int) (k : Nat),
    skipSetBits mt fuel u = u + k → ∀ j : Nat, j < k → BN_is_bit_set mt (u + j) = true := by
  intro fuel
  induction fuel with
  | zero =>
    intro u k h j hj
    simp only [skipSetBits] at h
    omega
  | succ f ih =>
    intro u k h j hj
    unfold skipSetBits at h
    by_cases hb : BN_is_bit_set mt u = true
    · rw [if_pos hb] at h
      cases j with
      | zero => simpa using hb
      | succ j =>
        obtain ⟨k1, rfl⟩ : ∃ k1, k = k1 + 1 := ⟨k - 1, by omega⟩
        have h1 : skipSetBits mt f (u + 1) = u + 1 + (k1 : Int) := by
          rw [h]; push_cast; ring
        have := ih (u + 1) k1 h1 j (by omega)
        have e1 : u + ((j + 1 : Nat) : Int) = u + 1 + (j : Int) := by push_cast; ring
        rw [e1]
        exact this
    · rw [if_neg hb] at h
      omega

/-- The carry loop from any start index: it skips `k` set bits and stops on a
clear one. -/
theorem extend_boundary_run (mt : Nat) (u0 : Int) :
    ∃ k : Nat, extend_boundary_past_carry mt u0 = u0 + k + 1 ∧
      BN_is_bit_set mt (u0 + k) = false ∧
      ∀ j : Nat, j < k → BN_is_bit_set mt (u0 + j) = true := by
  obtain ⟨k, hk⟩ := skipSetBits_add mt (BN_num_bits mt + 1) u0
  have hclear := skipSetBits_clear mt (BN_num_bits mt + 1) u0 (by omega) (by
    intro _
    have h1 := BN_num_bits_lt mt
    exact lt_of_lt_of_le h1 (Nat.pow_le_pow_right (by norm_num) (by omega)))
  rw [hk] at hclear
  refine ⟨k, ?_, hclear, skipSetBits_run mt (BN_num_bits mt + 1) u0 k hk⟩
  unfold extend_boundary_past_carry
  rw [hk]

/-- The carry loop ends past a clear bit, at or after its starting point. -/
theorem extend_boundary_spec (mt : Nat) (u : Int) (hu : 0 ≤ u) :
    ∃ k : Nat, extend_boundary_past_carry mt u = u + k + 1 ∧
      mt.testBit (u.toNat + k) = false := by
  obtain ⟨k, hk⟩ := skipSetBits_add mt (BN_num_bits mt + 1) u
  have hclear := skipSetBits_clear mt (BN_num_bits mt + 1) u (by omega) (by
    intro _
    have h1 := BN_num_bits_lt mt
    refine lt_of_lt_of_le h1 (Nat.pow_le_pow_right (by norm_num) (by omega)))
  refine ⟨k, by unfold extend_boundary_past_carry; rw [hk], ?_⟩
  rw [hk] at hclear
  unfold BN_is_bit_set at hclear
  have h0 : decide (0 ≤ u + (k : Int)) = true := by
    simp only [decide_eq_true_eq]; omega
  rw [h0, Bool.true_and] at hclear
  have e1 : (u + (k : Int)).toNat = u.toNat + k := by omega
  rw [e1] at hclear
  exact hclear

theorem search_iteration_spec (O : Oracle) (fuel : Nat) (st st1 : State)
    (h : search_iteration O fuel st = some st1) :
    ∃ (l_1 : Nat) (r : Found) (g : Nat), 0 ≤ st.l ∧
      BN_mod_inverse (1 <<< st.l.toNat) st.n = some l_1 ∧
      find_multiplier O fuel st.c st.n st.e st.mt l_1 = some r ∧
      oracle_guess O r.c r.l = some g ∧
      st1.c = r.c ∧ st1.n = st.n ∧ st1.e = st.e ∧
      st1.S = st.S * r.ss % st.n * l_1 % st.n ∧
      st1.l = r.l ∧ st1.ss = r.ss ∧ 0 ≤ st1.u ∧
      st1.u = max (extend_boundary_past_carry r.mt (st.u - st.l + (BN_num_bits r.ss + 1))) r.l ∧
      st1.mt = (r.mt >>> st1.u.toNat) <<< st1.u.toNat + g := by
  unfold search_iteration at h
  simp only at h
  by_cases hl : st.l < 0
  · rw [if_pos hl] at h; exact absurd h (by simp)
  · rw [if_neg hl] at h
    cases hinv : BN_mod_inverse (1 <<< st.l.toNat) st.n with
    | none => rw [hinv] at h; exact absurd h (by simp)
    | some l_1 =>
      rw [hinv] at h
      simp only at h
      cases hfm : find_multiplier O fuel st.c st.n st.e st.mt l_1 with
      | none => rw [hfm] at h; exact absurd h (by simp)
      | some r =>
        rw [hfm] at h
        simp only at h
        have hmax : (if extend_boundary_past_carry r.mt (st.u - st.l + (BN_num_bits r.ss + 1)) < r.l
            then r.l
            else extend_boundary_past_carry r.mt (st.u - st.l + (BN_num_bits r.ss + 1)))
            = max (extend_boundary_past_carry r.mt (st.u - st.l + (BN_num_bits r.ss + 1))) r.l := by
          split <;> omega
        rw [hmax] at h
        by_cases hu : max (extend_boundary_past_carry r.mt
            (st.u - st.l + (BN_num_bits r.ss + 1))) r.l < 0
        · rw [if_pos hu] at h; exact absurd h (by simp)
        · rw [if_neg hu] at h
          cases hg : oracle_guess O r.c r.l with
          | none => rw [hg] at h; exact absurd h (by simp)
          | some g =>
            rw [hg] at h
            simp only [Option.some.injEq] at h
            subst h
            exact ⟨l_1, r, g, by omega, rfl, hfm, hg, rfl, rfl, rfl, rfl, rfl, rfl,
              not_lt.mp hu, rfl, rfl⟩

/-! ## The toy run -/

theorem toy_init : decrypt_init plainOracle toyPlaintext toyModulus 1 1 = some toyInit := by
  decide!

theorem toy_loop : ∃ st, decrypt_loop plainOracle 2 12 toyInit = some st := by
  have h : (decrypt_loop plainOracle 2 12 toyInit).isSome = true := by decide!
  exact Option.isSome_iff_exists.mp h

theorem toy_iterations : ∃ st, search_iterations plainOracle 2 3 toyInit = some st := by
  have h : (search_iterations plainOracle 2 3 toyInit).isSome = true := by decide!
  exact Option.isSome_iff_exists.mp h

theorem decrypt_init_spec (O : Oracle) (c n e S : Nat) (st : State)
    (h : decrypt_init O c n e S = some st) :
    ∃ l g, oracle_valid O c = some l ∧ oracle_guess O c l = some g ∧
      st = ⟨c, n, e, S, g ||| (1 <<< 2033), 2032, l, 0⟩ := by
  unfold decrypt_init at h
  cases hv : oracle_valid O c with
  | none => rw [hv] at h; exact absurd h (by simp)
  | some l =>
    rw [hv] at h
    simp only at h
    cases hg : oracle_guess O c l with
    | none => rw [hg] at h; exact absurd h (by simp)
    | some g =>
      rw [hg] at h
      simp only [Option.some.injEq] at h
      exact ⟨l, g, rfl, hg, h.symm⟩

theorem accumulator_step (O : Oracle) (fuel c0 : Nat) (st st1 : State)
    (h : search_iteration O fuel st = some st1)
    (hinv : st.c = c0 * st.S ^ st.e % st.n) :
    st1.n = st.n ∧ st1.e = st.e ∧ st1.c = c0 * st1.S ^ st1.e % st1.n := by
  obtain ⟨l_1, r, g, _, _, hfm, _, b1, b2, b3, b4, _, _, _, _, _⟩ :=
    search_iteration_spec O fuel st st1 h
  obtain ⟨_, _, _, _, _, _, a6, _⟩ := find_multiplier_spec O fuel st.c st.n st.e st.mt l_1 r hfm
  refine ⟨b2, b3, ?_⟩
  rw [b1, a6, b2, b3, b4, hinv]
  have h1 : c0 * st.S ^ st.e % st.n * l_1 ^ st.e * r.ss ^ st.e
      ≡ c0 * st.S ^ st.e * l_1 ^ st.e * r.ss ^ st.e [MOD st.n] :=
    ((Nat.mod_modEq _ _).mul_right _).mul_right _
  have h2 : (st.S * r.ss % st.n * l_1 % st.n) ^ st.e ≡ (st.S * r.ss * l_1) ^ st.e [MOD st.n] :=
    Nat.ModEq.pow _ ((Nat.mod_modEq _ _).trans ((Nat.mod_modEq _ _).mul_right _))
  have h3 : c0 * (st.S * r.ss % st.n * l_1 % st.n) ^ st.e
      ≡ c0 * (st.S * r.ss * l_1) ^ st.e [MOD st.n] := h2.mul_left _
  have h4 : c0 * (st.S * r.ss * l_1) ^ st.e = c0 * st.S ^ st.e * l_1 ^ st.e * r.ss ^ st.e := by
    ring
  rw [h4] at h3
  exact h1.trans h3.symm

theorem accumulator_iterations (O : Oracle) (fuel c0 n e : Nat) :
    ∀ (k : Nat) (st0 st : State), search_iterations O fuel k st0 = some st →
      (st0.n = n ∧ st0.e = e ∧ st0.c = c0 * st0.S ^ e % n) →
      (st.n = n ∧ st.e = e ∧ st.c = c0 * st.S ^ e % n) := by
  intro k
  induction k with
  | zero =>
    intro st0 st h hP
    simp only [search_iterations, Option.some.injEq] at h
    subst h
    exact hP
  | succ k ih =>
    intro st0 st h hP
    unfold search_iterations at h
    by_cases hg : st0.u > st0.l
    · rw [if_pos hg] at h
      cases hs : search_iteration O fuel st0 with
      | none => rw [hs] at h; exact absurd h (by simp)
      | some st1 =>
        rw [hs] at h
        simp only at h
        obtain ⟨p1, p2, p3⟩ := hP
        have hstep := accumulator_step O fuel c0 st0 st1 hs (by rw [p1, p2]; exact p3)
        exact ih st1 st h ⟨by rw [hstep.1, p1], by rw [hstep.2.1, p2], by
          have := hstep.2.2
          rw [hstep.1, hstep.2.1, p1, p2] at this
          exact this⟩
    · rw [if_neg hg] at h
      exact absurd h (by simp)

/-! ## Claims on the main loop: accumulator, gap and clamp -/

/-- C5: if `decrypt` is entered with `S = 1` and `c = c0 < n`, then after INIT
and after every completed SEARCH iteration `c = c0 * S^e mod n`; hence for
`c0 = m^e mod n`, `c = (S*m)^e mod n`. -/
theorem accumulator_invariant (O : Oracle) (fuel k c0 n e : Nat) (st0 st : State)
    (hc : c0 < n) (hinit : decrypt_init O c0 n e 1 = some st0)
    (hrun : search_iterations O fuel k st0 = some st) :
    st.n = n ∧ st.e = e ∧ st.c = c0 * st.S ^ e % n ∧
    ∀ m, c0 = m ^ e % n → st.c = (st.S * m) ^ e % n := by
  obtain ⟨l, g, _, _, hst0⟩ := decrypt_init_spec O c0 n e 1 st0 hinit
  have hP0 : st0.n = n ∧ st0.e = e ∧ st0.c = c0 * st0.S ^ e % n := by
    subst hst0
    simp [Nat.mod_eq_of_lt hc]
  obtain ⟨q1, q2, q3⟩ := accumulator_iterations O fuel c0 n e k st0 st hrun hP0
  refine ⟨q1, q2, q3, ?_⟩
  intro m hm
  rw [q3, hm, Nat.mod_mul_mod, mul_pow, mul_comm]

theorem accumulator_invariant_witness :
    toyPlaintext < toyModulus ∧
    ∃ st, search_iterations plainOracle 2 3 toyInit = some st ∧
      st.c = toyPlaintext * st.S ^ 1 % toyModulus :=
  have hc : toyPlaintext < toyModulus := by decide!
  toy_iterations.elim fun st hst =>
    ⟨hc, st, hst,
      (accumulator_invariant plainOracle 2 3 toyPlaintext toyModulus 1 toyInit st hc
        toy_init hst).2.2.1⟩

/-- C7, as amended: a completed SEARCH iteration leaves the gap
`u - l = max 0 ((u_old - l_old) + BN_num_bits(s) + 2 + k - l_new)`, where `k`
is the number of set bits of the `mt` left by `find_multiplier` that the carry
loop skipped from index `u_old - l_old + BN_num_bits(s) + 1` on.  So an
iteration entered with `u > l` makes the gap strictly smaller when
`l_new > BN_num_bits(s) + 2 + k`, and does not make it smaller otherwise. -/
theorem gap_after_iteration (O : Oracle) (fuel : Nat) (st st1 : State)
    (h : search_iteration O fuel st = some st1) :
    ∃ (l_1 : Nat) (r : Found) (k : Nat),
      BN_mod_inverse (1 <<< st.l.toNat) st.n = some l_1 ∧
      find_multiplier O fuel st.c st.n st.e st.mt l_1 = some r ∧
      st1.ss = r.ss ∧ st1.l = r.l ∧
      (∀ j : Nat, j < k →
        BN_is_bit_set r.mt (st.u - st.l + (BN_num_bits r.ss + 1) + j) = true) ∧
      BN_is_bit_set r.mt (st.u - st.l + (BN_num_bits r.ss + 1) + k) = false ∧
      st1.u - st1.l = max 0 (st.u - st.l + BN_num_bits r.ss + 2 + k - r.l) ∧
      (st.l < st.u → (BN_num_bits r.ss : Int) + 2 + k < r.l →
        st1.u - st1.l < st.u - st.l) ∧
      (st.l < st.u → r.l ≤ (BN_num_bits r.ss : Int) + 2 + k →
        st.u - st.l ≤ st1.u - st1.l) := by
  obtain ⟨l_1, r, g, _, hinv, hfm, _, _, _, _, _, b5, b6, _, b8, _⟩ :=
    search_iteration_spec O fuel st st1 h
  obtain ⟨k, hext, hclear, hrun⟩ :=
    extend_boundary_run r.mt (st.u - st.l + (BN_num_bits r.ss + 1))
  rw [hext] at b8
  refine ⟨l_1, r, k, hinv, hfm, b6, b5, hrun, hclear, ?_, ?_, ?_⟩
  · rw [b8, b5]; omega
  · intro h1 h2
    rw [b8, b5]
    omega
  · intro h1 h2
    rw [b8, b5]
    omega

theorem gap_after_iteration_witness :
    search_iteration plainOracle 1 onesInit = some onesNext ∧
    ∃ (l_1 : Nat) (r : Found) (k : Nat),
      BN_mod_inverse (1 <<< onesInit.l.toNat) onesInit.n = some l_1 ∧
      find_multiplier plainOracle 1 onesInit.c onesInit.n onesInit.e onesInit.mt l_1 = some r ∧
      onesNext.ss = r.ss ∧ onesNext.l = r.l ∧
      (∀ j : Nat, j < k →
        BN_is_bit_set r.mt (onesInit.u - onesInit.l + (BN_num_bits r.ss + 1) + j) = true) ∧
      BN_is_bit_set r.mt (onesInit.u - onesInit.l + (BN_num_bits r.ss + 1) + k) = false ∧
      onesNext.u - onesNext.l
        = max 0 (onesInit.u - onesInit.l + BN_num_bits r.ss + 2 + k - r.l) :=
  have hstep : search_iteration plainOracle 1 onesInit = some onesNext := by decide!
  (gap_after_iteration plainOracle 1 onesInit onesNext hstep).elim fun l_1 h1 =>
    h1.elim fun r h2 => h2.elim fun k h3 =>
      ⟨hstep, l_1, r, k, h3.1, h3.2.1, h3.2.2.1, h3.2.2.2.1, h3.2.2.2.2.1, h3.2.2.2.2.2.1,
        h3.2.2.2.2.2.2.1⟩

/-- C7 fails as stated: from INIT on the plaintext `2^2033 + 1` the first
SEARCH iteration is entered with `u - l = 1832` and leaves `u - l = 1833`. -/
theorem gap_can_grow :
    decrypt_init plainOracle (2 ^ 2033 + 1) toyModulus 1 1 = some onesInit ∧
    onesInit.l < onesInit.u ∧
    search_iteration plainOracle 1 onesInit = some onesNext ∧
    ¬ (onesNext.u - onesNext.l < onesInit.u - onesInit.l) :=
  ⟨by decide!, by decide, by decide!, by decide⟩

/-- C8: after every completed SEARCH iteration `u ≥ l` holds for the new `u`
and the new `l`; so when the loop exits after at least one iteration, `u = l`. -/
theorem boundary_clamp (O : Oracle) (fuel : Nat) :
    (∀ st st1, search_iteration O fuel st = some st1 → st1.l ≤ st1.u) ∧
    (∀ k st0 st, st0.l < st0.u → decrypt_loop O fuel k st0 = some st → st.u = st.l) := by
  have hstep : ∀ st st1, search_iteration O fuel st = some st1 → st1.l ≤ st1.u := by
    intro st st1 h
    obtain ⟨l_1, r, g, _, _, _, _, _, _, _, _, b5, _, _, b8, _⟩ :=
      search_iteration_spec O fuel st st1 h
    rw [b8, b5]
    exact le_max_right _ _
  refine ⟨hstep, ?_⟩
  have hloop : ∀ k st0 st, st0.l ≤ st0.u → decrypt_loop O fuel k st0 = some st →
      st.u = st.l ∨ (st = st0 ∧ ¬ st0.l < st0.u) := by
    intro k
    induction k with
    | zero => intro st0 st _ h; simp [decrypt_loop] at h
    | succ k ih =>
      intro st0 st hle h
      unfold decrypt_loop at h
      by_cases hg : st0.u > st0.l
      · rw [if_pos hg] at h
        cases hs : search_iteration O fuel st0 with
        | none => rw [hs] at h; exact absurd h (by simp)
        | some st1 =>
          rw [hs] at h
          simp only at h
          rcases ih st1 st (hstep st0 st1 hs) h with h1 | ⟨h1, h2⟩
          · exact Or.inl h1
          · subst h1
            have := hstep st0 st hs
            exact Or.inl (by omega)
      · rw [if_neg hg] at h
        simp only [Option.some.injEq] at h
        exact Or.inr ⟨h.symm, by omega⟩
  intro k st0 st hlt h
  rcases hloop k st0 st (le_of_lt hlt) h with h1 | ⟨_, h2⟩
  · exact h1
  · exact absurd hlt h2

theorem boundary_clamp_witness :
    toyInit.l < toyInit.u ∧
    ∃ st, decrypt_loop plainOracle 2 12 toyInit = some st ∧ st.u = st.l :=
  have hlt : toyInit.l < toyInit.u := by decide
  toy_loop.elim fun st hst =>
    ⟨hlt, st, hst, (boundary_clamp plainOracle 2).2 12 toyInit st hlt hst⟩

/-! ## Arithmetic of the known-bits bookkeeping -/

/-- Splitting `M` at the boundaries `l ≤ u`: the known part plus the unknown
middle `x`, which is `u - l` bits wide. -/
theorem split_at_boundaries (M l u : Nat) (hlu : l ≤ u) :
    M = (M / 2 ^ u * 2 ^ u + M % 2 ^ l) + 2 ^ l * (M % 2 ^ u / 2 ^ l) ∧
    M % 2 ^ u / 2 ^ l < 2 ^ (u - l) := by
  have hdvd : 2 ^ l ∣ 2 ^ u := pow_dvd_pow 2 hlu
  have h1 := Nat.div_add_mod M (2 ^ u)
  have h2 := Nat.div_add_mod (M % 2 ^ u) (2 ^ l)
  rw [Nat.mod_mod_of_dvd M hdvd] at h2
  constructor
  · have h3 : 2 ^ u * (M / 2 ^ u) = M / 2 ^ u * 2 ^ u := Nat.mul_comm _ _
    omega
  · apply Nat.div_lt_of_lt_mul
    rw [← pow_add, Nat.add_sub_cancel' hlu]
    exact Nat.mod_lt _ (by positivity)

/-- Adding less than `2^q` to a number whose bit `q` is clear leaves the bits
from `q + 1` on unchanged. -/
theorem add_keeps_high_bits (a d q : Nat) (hbit : a.testBit q = false) (hd : d < 2 ^ q) :
    (a + d) / 2 ^ (q + 1) = a / 2 ^ (q + 1) := by
  have hlow : a % 2 ^ (q + 1) < 2 ^ q := by
    rw [pow_succ, Nat.mod_mul]
    have h1 : a / 2 ^ q % 2 = 0 := by
      rw [Nat.testBit_to_div_mod] at hbit
      have := Nat.mod_two_eq_zero_or_one (a / 2 ^ q)
      simp only [decide_eq_false_iff_not] at hbit
      omega
    rw [h1]
    simp only [Nat.mul_zero, Nat.add_zero]
    exact Nat.mod_lt _ (by positivity)
  have hpos : 0 < 2 ^ (q + 1) := by positivity
  have h2 := Nat.div_add_mod a (2 ^ (q + 1))
  have h3 : a + d = 2 ^ (q + 1) * (a / 2 ^ (q + 1)) + (a % 2 ^ (q + 1) + d) := by omega
  rw [h3, Nat.mul_add_div hpos]
  have h4 : a % 2 ^ (q + 1) + d < 2 ^ (q + 1) := by
    have h5 : 2 ^ (q + 1) = 2 ^ q * 2 := pow_succ 2 q
    omega
  rw [Nat.div_eq_of_lt h4]
  simp

/-- Bounds given by the marker `0x0002` above bit 2032. -/
theorem marker_bounds (x : Nat) (h : x >>> 2032 = 2) : 2 ^ 2033 ≤ x ∧ x < 3 * 2 ^ 2032 := by
  rw [Nat.shiftRight_eq_div_pow] at h
  have hpos : 0 < 2 ^ 2032 := by positivity
  constructor
  · have h1 : 2 ≤ x / 2 ^ 2032 := by omega
    have h2 := (Nat.le_div_iff_mul_le hpos).mp h1
    rw [pow_succ]
    omega
  · have h1 : x / 2 ^ 2032 < 3 := by omega
    exact (Nat.div_lt_iff_lt_mul hpos).mp h1

theorem div_pow_mono (a b i j : Nat) (hij : i ≤ j) (h : a / 2 ^ i = b / 2 ^ i) :
    a / 2 ^ j = b / 2 ^ j := by
  obtain ⟨k, rfl⟩ : ∃ k, j = i + k := ⟨j - i, by omega⟩
  rw [pow_add, ← Nat.div_div_eq_div_mul, ← Nat.div_div_eq_div_mul, h]

/-- The step of the known-bits argument.  `M` is the true value before the
iteration and `mt` its approximation with the bits in `[l, u)` unknown; `mt1` is
the accumulated value and `M1` the true value after multiplying by `s * l_1`.
Past a clear bit `q` of `mt1` at or above `u - l + bs + 1`, where `s < 2^bs`,
`mt1` and `M1` agree. -/
theorem high_bits_after_multiply (n mt M l u s bs l_1 mt1 M1 q : Nat)
    (hlu : l ≤ u) (hmt : mt = M / 2 ^ u * 2 ^ u + M % 2 ^ l)
    (hinv : l_1 * 2 ^ l % n = 1 % n) (hmt1 : mt1 = s * (mt * l_1 % n) % n)
    (hM1 : M1 = s * l_1 * M % n) (hn : n ≠ 0)
    (hmark : mt1 >>> 2032 = 2) (hMmark : M1 >>> 2032 = 2)
    (hs : s < 2 ^ bs) (hq : u - l + bs + 1 ≤ q) (hbit : mt1.testBit q = false) :
    M1 / 2 ^ (q + 1) = mt1 / 2 ^ (q + 1) := by
  obtain ⟨hsplit, hx⟩ := split_at_boundaries M l u hlu
  rw [← hmt] at hsplit
  set x := M % 2 ^ u / 2 ^ l with hxdef
  have hnpos : 0 < n := Nat.pos_of_ne_zero hn
  -- the true value is the accumulated one plus `s * x`, modulo `n`
  have hcong : M1 = (mt1 + s * x) % n := by
    rw [hM1, hmt1]
    have e1 : s * l_1 * M = s * (mt * l_1) + s * x * (l_1 * 2 ^ l) := by
      rw [hsplit]; ring
    rw [e1]
    have c1 : s * (mt * l_1) ≡ s * (mt * l_1 % n) % n [MOD n] :=
      ((Nat.mod_modEq _ _).mul_left s).symm.trans (Nat.mod_modEq _ _).symm
    have c2 : s * x * (l_1 * 2 ^ l) ≡ s * x [MOD n] := by
      have c3 : l_1 * 2 ^ l ≡ 1 [MOD n] := hinv
      simpa using c3.mul_left (s * x)
    exact Nat.ModEq.add c1 c2
  have hd : s * x < 2 ^ (q - 1) := by
    have h1 : s * x < 2 ^ bs * 2 ^ (u - l) := by
      have hs1 : s ≤ 2 ^ bs := le_of_lt hs
      have hpos : 0 < 2 ^ bs := by positivity
      calc s * x ≤ 2 ^ bs * x := Nat.mul_le_mul_right _ hs1
        _ < 2 ^ bs * 2 ^ (u - l) := Nat.mul_lt_mul_of_pos_left hx hpos
    rw [← pow_add] at h1
    exact lt_of_lt_of_le h1 (Nat.pow_le_pow_right (by norm_num) (by omega))
  have hq1 : 2 ^ q = 2 * 2 ^ (q - 1) := by
    obtain ⟨j, rfl⟩ : ∃ j, q = j + 1 := ⟨q - 1, by omega⟩
    rw [pow_succ]; simp [Nat.mul_comm]
  have hmt1lt : mt1 < n := by rw [hmt1]; exact Nat.mod_lt _ hnpos
  have hM1lt : M1 < n := by rw [hM1]; exact Nat.mod_lt _ hnpos
  by_cases hwrap : mt1 + s * x < n
  · rw [hcong, Nat.mod_eq_of_lt hwrap]
    exact add_keeps_high_bits mt1 (s * x) q hbit (by omega)
  · -- the sum wraps: then `n < 2^(q+1)` and both quotients vanish
    obtain ⟨m1, m2⟩ := marker_bounds mt1 hmark
    obtain ⟨m3, _⟩ := marker_bounds M1 hMmark
    have hle : M1 + n ≤ mt1 + s * x := by
      have h1 : (mt1 + s * x) % n = (mt1 + s * x - n) % n :=
        Nat.mod_eq_sub_mod (by omega)
      have h2 : (mt1 + s * x - n) % n ≤ mt1 + s * x - n := Nat.mod_le _ _
      omega
    have h33 : (2 : Nat) ^ 2033 = 2 * 2 ^ 2032 := by rw [pow_succ]; simp [Nat.mul_comm]
    have hnlt : n < 2 ^ (q + 1) := by
      rw [pow_succ, hq1]
      omega
    rw [Nat.div_eq_of_lt (lt_trans hM1lt hnlt), Nat.div_eq_of_lt (lt_trans hmt1lt hnlt)]

/-- A zero byte at index `b` makes the low `b + 1` bytes equal the low `b` bytes. -/
theorem low_bytes_of_zero_delimiter (M k : Nat) (h : (M >>> k) % 256 = 0) :
    M % 2 ^ (k + 8) = M % 2 ^ k := by
  rw [Nat.shiftRight_eq_div_pow] at h
  rw [pow_add, Nat.mod_mul]
  norm_num
  exact h

theorem lor_marker_bit (g : Nat) (hg : g < 2 ^ 2033) : g ||| (1 <<< 2033) = 2 ^ 2033 + g := by
  rw [Nat.one_shiftLeft]
  apply Nat.eq_of_testBit_eq
  intro i
  rw [Nat.testBit_lor, Nat.testBit_two_pow]
  rcases Nat.lt_trichotomy i 2033 with h | h | h
  · rw [Nat.testBit_two_pow_add_gt h]
    have : ¬ (2033 = i) := by omega
    simp [this]
  · subst h
    rw [Nat.testBit_two_pow_add_eq, Nat.testBit_lt_two_pow hg]
    simp
  · have h1 : g < 2 ^ i := lt_trans hg (Nat.pow_lt_pow_right (by norm_num) h)
    have h2 : 2 ^ 2033 + g < 2 ^ i := by
      have h3 : 2 ^ (2033 + 1) ≤ 2 ^ i := Nat.pow_le_pow_right (by norm_num) h
      rw [pow_succ] at h3
      omega
    rw [Nat.testBit_lt_two_pow h1, Nat.testBit_lt_two_pow h2]
    have : ¬ (2033 = i) := by omega
    simp [this]

/-! ## The known-bits invariant of the main loop -/

theorem known_bits_testBit (st : State) (M : Nat) (hK : KnownBits st M) (i : Nat)
    (hi : st.u ≤ (i : Int) ∨ (i : Int) < st.l) : st.mt.testBit i = M.testBit i := by
  obtain ⟨h0, hlu, hmt⟩ := hK
  have hLU : st.l.toNat ≤ st.u.toNat := by omega
  have hr : M % 2 ^ st.l.toNat < 2 ^ st.u.toNat :=
    lt_of_lt_of_le (Nat.mod_lt _ (by positivity)) (Nat.pow_le_pow_right (by norm_num) hLU)
  rcases hi with hi | hi
  · have hge : st.u.toNat ≤ i := by omega
    obtain ⟨j, rfl⟩ : ∃ j, i = st.u.toNat + j := ⟨i - st.u.toNat, by omega⟩
    rw [← Nat.testBit_shiftRight, ← Nat.testBit_shiftRight, Nat.shiftRight_eq_div_pow,
      Nat.shiftRight_eq_div_pow, hmt]
    congr 1
    rw [Nat.mul_comm, Nat.mul_add_div (by positivity), Nat.div_eq_of_lt hr]
    simp
  · have hlt : i < st.l.toNat := by omega
    have h1 : st.mt % 2 ^ st.l.toNat = M % 2 ^ st.l.toNat := by
      have hdvd : 2 ^ st.l.toNat ∣ M / 2 ^ st.u.toNat * 2 ^ st.u.toNat :=
        Dvd.dvd.mul_left (pow_dvd_pow 2 hLU) _
      obtain ⟨t, ht⟩ := hdvd
      rw [hmt, ht, Nat.mul_add_mod, Nat.mod_mod]
    have h2 := Nat.testBit_mod_two_pow st.mt st.l.toNat i
    have h3 := Nat.testBit_mod_two_pow M st.l.toNat i
    rw [h1] at h2
    rw [h2] at h3
    simpa [hlt] using h3

theorem known_bits_init (O : Oracle) (dec : Nat → Nat) (n e m : Nat) (st0 : State)
    (hm : m < n) (hdec : ∀ x, x < n → dec (x ^ e % n) = x) (hO : Faithful O dec)
    (hinit : decrypt_init O (m ^ e % n) n e 1 = some st0) :
    st0.n = n ∧ st0.e = e ∧ st0.c = m ^ e % n * st0.S ^ e % n ∧
      KnownBits st0 (st0.S * m % n) := by
  obtain ⟨l, g, hv, hg, hst0⟩ := decrypt_init_spec O (m ^ e % n) n e 1 st0 hinit
  have hnpos : 0 < n := by omega
  obtain ⟨buf, henc, hcase⟩ := oracle_valid_spec O _ l hv
  obtain ⟨buf1, henc1, hb0, hb24, hgval⟩ := oracle_guess_spec O _ l g hg
  rw [henc] at henc1
  simp only [Option.some.injEq] at henc1
  subst henc1
  rcases hcase with ⟨_, hl0⟩ | ⟨hbne, hl, _, _⟩
  · subst hl0
    simp at hb0
  · obtain ⟨f1, f2, f3, f4⟩ := hO _ buf henc hbne
    rw [hdec m hm] at f2 f3 f4
    have htd : Int.tdiv l 8 - 1 = O.run_oracle_valid_multiple buf := by
      rw [hl, Int.mul_tdiv_cancel _ (by norm_num)]; omega
    rw [htd] at hgval hb24
    rw [f4] at hgval
    set b := (O.run_oracle_valid_multiple buf).toNat with hb
    have hb24n : b ≤ 24 := by omega
    have hlnat : l.toNat = 8 * b + 8 := by omega
    have hglt : g < 2 ^ 2033 := by
      rw [hgval]
      exact lt_of_lt_of_le (Nat.mod_lt _ (by positivity))
        (Nat.pow_le_pow_right (by norm_num) (by omega))
    subst hst0
    refine ⟨rfl, rfl, ?_, ?_, ?_, ?_⟩
    · simp [Nat.mod_mod]
    · show 0 ≤ l
      omega
    · show l ≤ 2032
      omega
    · show g ||| 1 <<< 2033 = (1 * m % n) / 2 ^ (2032 : Int).toNat * 2 ^ (2032 : Int).toNat
        + (1 * m % n) % 2 ^ l.toNat
      rw [lor_marker_bit g hglt, Nat.one_mul, Nat.mod_eq_of_lt hm, hlnat,
        low_bytes_of_zero_delimiter m (8 * b) f3, ← hgval]
      have h32 : (2032 : Int).toNat = 2032 := rfl
      rw [h32]
      rw [Nat.shiftRight_eq_div_pow] at f2
      rw [f2, pow_succ]
      ring

theorem known_bits_step (O : Oracle) (dec : Nat → Nat) (n e m fuel : Nat) (st st1 : State)
    (hdec : ∀ x, x < n → dec (x ^ e % n) = x) (hO : Faithful O dec)
    (hn : st.n = n) (he : st.e = e) (hc : st.c = m ^ e % n * st.S ^ e % n)
    (hK : KnownBits st (st.S * m % n)) (h : search_iteration O fuel st = some st1) :
    st1.n = n ∧ st1.e = e ∧ st1.c = m ^ e % n * st1.S ^ e % n ∧
      KnownBits st1 (st1.S * m % n) := by
  obtain ⟨hacc1, hacc2, hacc3⟩ := accumulator_step O fuel (m ^ e % n) st st1 h
    (by rw [hn, he]; exact hc)
  rw [hacc1, hacc2, hn, he] at hacc3
  obtain ⟨l_1, r, g, hl0, hinv, hfm, hg, b1, b2, b3, b4, b5, b6, b7, b8, b9⟩ :=
    search_iteration_spec O fuel st st1 h
  obtain ⟨a0, a1, _, _, a4, a5, _, a7, a8, _, _⟩ :=
    find_multiplier_spec O fuel st.c st.n st.e st.mt l_1 r hfm
  rw [hn] at a0 a4 hinv b4
  have hnpos : 0 < n := Nat.pos_of_ne_zero a0
  obtain ⟨hK0, hKlu, hKmt⟩ := hK
  refine ⟨by rw [b2, hn], by rw [b3, he], hacc3, ?_⟩
  -- the plaintext of the new ciphertext is the new true value
  have hM1lt : st1.S * m % n < n := Nat.mod_lt _ hnpos
  have hplain : dec r.c = st1.S * m % n := by
    have e1 : r.c = (st1.S * m % n) ^ e % n := by
      rw [← b1, hacc3, Nat.mod_mul_mod, ← Nat.pow_mod, mul_pow, mul_comm]
    rw [e1]
    exact hdec _ hM1lt
  -- what the oracle certified
  obtain ⟨buf, henc, hcase⟩ := oracle_valid_spec O r.c r.l a7
  obtain ⟨buf1, henc1, _, _, hgval⟩ := oracle_guess_spec O r.c r.l g hg
  rw [henc] at henc1
  simp only [Option.some.injEq] at henc1
  subst henc1
  rcases hcase with ⟨_, hl00⟩ | ⟨hbne, hl, _, _⟩
  · exact absurd hl00 a8
  · obtain ⟨f1, f2, f3, f4⟩ := hO _ buf henc hbne
    rw [hplain] at f2 f3 f4
    have htd : Int.tdiv r.l 8 - 1 = O.run_oracle_valid_multiple buf := by
      rw [hl, Int.mul_tdiv_cancel _ (by norm_num)]; omega
    rw [htd, f4] at hgval
    set b := (O.run_oracle_valid_multiple buf).toNat with hb
    have hlnat : r.l.toNat = 8 * b + 8 := by omega
    -- the carry loop
    have hu2 : 0 ≤ st.u - st.l + ((BN_num_bits r.ss : Int) + 1) := by omega
    obtain ⟨k, hext, hclear⟩ := extend_boundary_spec r.mt _ hu2
    rw [hext] at b8
    have hl1 : l_1 * 2 ^ st.l.toNat % n = 1 % n := by
      have := (BN_mod_inverse_sound _ n l_1 hinv).2
      rwa [Nat.one_shiftLeft] at this
    have hM1 : st1.S * m % n = r.ss * l_1 * (st.S * m % n) % n := by
      rw [b4]
      have c1 : st.S * r.ss % n * l_1 % n * m ≡ st.S * r.ss * l_1 * m [MOD n] :=
        ((Nat.mod_modEq _ _).trans ((Nat.mod_modEq _ _).mul_right _)).mul_right _
      have c2 : r.ss * l_1 * (st.S * m % n) ≡ r.ss * l_1 * (st.S * m) [MOD n] :=
        (Nat.mod_modEq _ _).mul_left _
      have e2 : st.S * r.ss * l_1 * m = r.ss * l_1 * (st.S * m) := by ring
      rw [e2] at c1
      exact c1.trans c2.symm
    have hhigh := high_bits_after_multiply n st.mt (st.S * m % n) st.l.toNat st.u.toNat r.ss
      (BN_num_bits r.ss) l_1 r.mt (st1.S * m % n)
      ((st.u - st.l + ((BN_num_bits r.ss : Int) + 1)).toNat + k)
      (by omega) hKmt hl1 a4 hM1 a0 a5 f2 (BN_num_bits_lt r.ss) (by omega) hclear
    have hU : (st.u - st.l + ((BN_num_bits r.ss : Int) + 1)).toNat + k + 1 ≤ st1.u.toNat := by
      rw [b8]
      have := le_max_left (st.u - st.l + ((BN_num_bits r.ss : Int) + 1) + (k : Int) + 1) r.l
      omega
    have hdiv := div_pow_mono _ _ _ _ hU hhigh
    refine ⟨by rw [b5]; omega, by rw [b8, b5]; exact le_max_right _ _, ?_⟩
    rw [b9, Nat.shiftRight_eq_div_pow, Nat.shiftLeft_eq, ← hdiv, b5, hlnat,
      low_bytes_of_zero_delimiter _ (8 * b) f3, hgval]

theorem known_bits_iterations (O : Oracle) (dec : Nat → Nat) (n e m fuel : Nat)
    (hdec : ∀ x, x < n → dec (x ^ e % n) = x) (hO : Faithful O dec) :
    ∀ (k : Nat) (st0 st : State), search_iterations O fuel k st0 = some st →
      (st0.n = n ∧ st0.e = e ∧ st0.c = m ^ e % n * st0.S ^ e % n ∧
        KnownBits st0 (st0.S * m % n)) →
      (st.n = n ∧ st.e = e ∧ st.c = m ^ e % n * st.S ^ e % n ∧
        KnownBits st (st.S * m % n)) := by
  intro k
  induction k with
  | zero =>
    intro st0 st h hP
    simp only [search_iterations, Option.some.injEq] at h
    subst h
    exact hP
  | succ k ih =>
    intro st0 st h hP
    unfold search_iterations at h
    by_cases hg : st0.u > st0.l
    · rw [if_pos hg] at h
      cases hs : search_iteration O fuel st0 with
      | none => rw [hs] at h; exact absurd h (by simp)
      | some st1 =>
        rw [hs] at h
        simp only at h
        obtain ⟨p1, p2, p3, p4⟩ := hP
        exact ih st1 st h (known_bits_step O dec n e m fuel st0 st1 hdec hO p1 p2 p3 p4 hs)
    · rw [if_neg hg] at h
      exact absurd h (by simp)

theorem delimiterAt_spec (x : Nat) : ∀ bound, delimiterAt x bound ≠ 0 →
    delimiterAt x bound ≤ bound ∧ (x >>> (8 * delimiterAt x bound)) % 256 = 0 := by
  intro bound
  induction bound with
  | zero => intro h; simp [delimiterAt] at h
  | succ b ih =>
    intro h
    unfold delimiterAt at h ⊢
    by_cases hz : (x >>> (8 * (b + 1))) % 256 = 0
    · rw [if_pos hz]
      exact ⟨le_refl _, hz⟩
    · rw [if_neg hz] at h ⊢
      obtain ⟨i1, i2⟩ := ih h
      exact ⟨by omega, i2⟩

theorem plainOracle_faithful : Faithful plainOracle id := by
  intro x buf henc hne
  obtain ⟨_, hx, _⟩ := enc_key_spec x buf henc
  have hvalid : plainOracle.run_oracle_valid_multiple buf
      = if x >>> 2032 = 2 then ((delimiterAt x 24 : Nat) : Int) else 0 := by
    show (if BN_bin2bn buf >>> 2032 = 2 then ((delimiterAt (BN_bin2bn buf) 24 : Nat) : Int)
      else 0) = _
    rw [hx]
  by_cases hmark : x >>> 2032 = 2
  · rw [if_pos hmark] at hvalid
    rw [hvalid] at hne ⊢
    have hne1 : delimiterAt x 24 ≠ 0 := by exact_mod_cast hne
    obtain ⟨_, d2⟩ := delimiterAt_spec x 24 hne1
    have hto : ((delimiterAt x 24 : Nat) : Int).toNat = delimiterAt x 24 := by omega
    rw [hto]
    refine ⟨by omega, hmark, d2, ?_⟩
    show BN_bin2bn ((bn2binAux ((delimiterAt x 24 : Nat) : Int).toNat
      (BN_bin2bn buf % 2 ^ (8 * ((delimiterAt x 24 : Nat) : Int).toNat)) []).take
        (delimiterAt x 24)) = x % 2 ^ (8 * delimiterAt x 24)
    rw [hto, hx, List.take_of_length_le (by rw [length_bn2binAux]; simp)]
    unfold BN_bin2bn
    rw [foldl_bn2binAux]
    have h256 : (256 : Nat) ^ delimiterAt x 24 = 2 ^ (8 * delimiterAt x 24) := by
      rw [pow_mul]; norm_num
    simp [h256, Nat.mod_mod]
  · rw [if_neg hmark] at hvalid
    exact absurd hvalid hne

/-! ## Claims on the correctness of `decrypt` -/

/-- C6: with a faithful oracle, after INIT and after every completed SEARCH
iteration every bit of `mt` at an index `≥ u` or `< l` equals the bit of the
true value `S*m mod n` at the same index. -/
theorem known_bits_invariant (O : Oracle) (dec : Nat → Nat) (n e m fuel k : Nat)
    (st0 st : State) (hm : m < n) (hdec : ∀ x, x < n → dec (x ^ e % n) = x)
    (hO : Faithful O dec) (hinit : decrypt_init O (m ^ e % n) n e 1 = some st0)
    (hrun : search_iterations O fuel k st0 = some st) :
    ∀ i : Nat, (st.u ≤ (i : Int) ∨ (i : Int) < st.l) →
      st.mt.testBit i = (st.S * m % n).testBit i := by
  have h0 := known_bits_init O dec n e m st0 hm hdec hO hinit
  have h1 := known_bits_iterations O dec n e m fuel hdec hO k st0 st hrun h0
  exact fun i hi => known_bits_testBit st _ h1.2.2.2 i hi

theorem known_bits_invariant_witness :
    toyPlaintext < toyModulus ∧
    decrypt_init plainOracle (toyPlaintext ^ 1 % toyModulus) toyModulus 1 1 = some toyInit ∧
    ∃ st, search_iterations plainOracle 2 3 toyInit = some st ∧
      ∀ i : Nat, (st.u ≤ (i : Int) ∨ (i : Int) < st.l) →
        st.mt.testBit i = (st.S * toyPlaintext % toyModulus).testBit i :=
  have hm : toyPlaintext < toyModulus := by decide!
  have hc : toyPlaintext ^ 1 % toyModulus = toyPlaintext := by
    rw [pow_one, Nat.mod_eq_of_lt hm]
  have hinit : decrypt_init plainOracle (toyPlaintext ^ 1 % toyModulus) toyModulus 1 1
      = some toyInit := by rw [hc]; exact toy_init
  have hdec : ∀ x, x < toyModulus → id (x ^ 1 % toyModulus) = x := fun x hx => by
    rw [pow_one, Nat.mod_eq_of_lt hx]; rfl
  toy_iterations.elim fun st hst =>
    ⟨hm, hinit, st, hst,
      known_bits_invariant plainOracle id toyModulus 1 toyPlaintext 2 3 toyInit st hm hdec
        plainOracle_faithful hinit hst⟩

theorem foldl_bin2bn_lt : ∀ (s : List Nat) (init : Nat),
    s.foldl (fun x b => x * 256 + b % 256) init < (init + 1) * 256 ^ s.length := by
  intro s
  induction s with
  | nil => intro init; simp
  | cons b s ih =>
    intro init
    simp only [List.foldl_cons, List.length_cons]
    have h1 := ih (init * 256 + b % 256)
    have h2 : b % 256 < 256 := Nat.mod_lt _ (by norm_num)
    have h3 : (init * 256 + b % 256 + 1) * 256 ^ s.length ≤ (init + 1) * 256 ^ (s.length + 1) := by
      rw [pow_succ, Nat.mul_comm (256 ^ s.length) 256, ← Nat.mul_assoc]
      exact Nat.mul_le_mul_right _ (by omega)
    omega

/-- Decoding `k` bytes gives a number below `2^(8k)`. -/
theorem BN_bin2bn_take_lt (s : List Nat) (k : Nat) : BN_bin2bn (s.take k) < 2 ^ (8 * k) := by
  have h1 := foldl_bin2bn_lt (s.take k) 0
  have h2 : (256 : Nat) ^ (s.take k).length ≤ 256 ^ k :=
    Nat.pow_le_pow_right (by norm_num) (List.length_take_le k s)
  have h3 : (256 : Nat) ^ k = 2 ^ (8 * k) := by rw [pow_mul]; norm_num
  unfold BN_bin2bn
  rw [← h3]
  simp only [Nat.zero_add, Nat.one_mul] at h1
  omega

/-- The bytes written by `bn2binAux`, most significant first. -/
theorem bn2binAux_eq_map : ∀ (k a : Nat) (acc : List Nat),
    bn2binAux k a acc = (List.range k).map (fun i => a / 256 ^ (k - 1 - i) % 256) ++ acc := by
  intro k
  induction k with
  | zero => intro a acc; simp [bn2binAux]
  | succ k ih =>
    intro a acc
    unfold bn2binAux
    rw [ih, List.range_succ, List.map_append, List.append_assoc]
    congr 1
    · apply List.map_congr_left
      intro i hi
      rw [List.mem_range] at hi
      have e1 : k + 1 - 1 - i = (k - 1 - i) + 1 := by omega
      rw [e1, pow_succ, Nat.mul_comm, Nat.div_div_eq_div_mul]
    · simp

/-- The zero padding in front of the minimal encoding yields the 256 base-256
digits of `c`. -/
theorem padded_eq_digits (c k : Nat) (hk : k ≤ 256) (hc : c < 256 ^ k) :
    List.replicate (256 - k) 0 ++ bn2binAux k c []
      = (List.range 256).map (fun i => c / 256 ^ (255 - i) % 256) := by
  rw [bn2binAux_eq_map, List.append_nil]
  apply List.ext_getElem
  · simp; omega
  · intro i h1 h2
    simp only [List.getElem_map, List.getElem_range]
    by_cases hi : i < 256 - k
    · rw [List.getElem_append_left (by simpa using hi)]
      simp only [List.getElem_replicate]
      have h3 : c < 256 ^ (255 - i) :=
        lt_of_lt_of_le hc (Nat.pow_le_pow_right (by norm_num) (by omega))
      rw [Nat.div_eq_of_lt h3]
    · rw [List.getElem_append_right (by simpa using hi)]
      simp only [List.getElem_map, List.getElem_range, List.length_replicate]
      have e1 : k - 1 - (i - (256 - k)) = 255 - i := by
        simp only [List.length_map, List.length_range] at h2
        omega
      rw [e1]

/-! ## Claims on the encoding, the carry loop and the merge of the low bits -/

/-- C11: for every ciphertext `c < 2^2048` the request buffer of `oracle_valid`
and `oracle_guess` has exactly 256 bytes, is the big-endian encoding of `c`
padded on the left with zero bytes, and decodes big-endian back to `c`. -/
theorem request_buffer_encoding (c : Nat) (hc : c < 2 ^ 2048) :
    ∃ buf, enc_key c = some buf ∧ buf.length = 256 ∧
      buf = List.replicate (256 - BN_num_bytes c) 0 ++ BN_bn2bin c ∧
      buf = (List.range 256).map (fun i => c / 256 ^ (255 - i) % 256) ∧
      BN_bin2bn buf = c := by
  obtain ⟨buf, hbuf⟩ := enc_key_isSome c hc
  obtain ⟨h1, h2, _⟩ := enc_key_spec c buf hbuf
  have hk : BN_num_bytes c ≤ 256 := by
    have := BN_num_bits_le c 2048 hc
    unfold BN_num_bytes
    omega
  have h3 : buf = List.replicate (256 - BN_num_bytes c) 0 ++ BN_bn2bin c := by
    unfold enc_key at hbuf
    rw [if_pos hk] at hbuf
    simp only [Option.some.injEq] at hbuf
    exact hbuf.symm
  refine ⟨buf, hbuf, h1, h3, ?_, h2⟩
  rw [h3]
  exact padded_eq_digits c (BN_num_bytes c) hk (lt_pow_BN_num_bytes c)

theorem request_buffer_encoding_witness :
    toyPlaintext < 2 ^ 2048 ∧
    ∃ buf, enc_key toyPlaintext = some buf ∧ buf.length = 256 ∧
      buf = List.replicate (256 - BN_num_bytes toyPlaintext) 0 ++ BN_bn2bin toyPlaintext ∧
      buf = (List.range 256).map (fun i => toyPlaintext / 256 ^ (255 - i) % 256) ∧
      BN_bin2bn buf = toyPlaintext :=
  have hc : toyPlaintext < 2 ^ 2048 := by decide!
  ⟨hc, request_buffer_encoding toyPlaintext hc⟩

/-- C12: the loop `while (BN_is_bit_set(mt, u)) u++;` followed by `u++` ends,
and from the start index `u0` it yields `u0 + k + 1`, where the `k` bits of `mt`
from index `u0` on are set and the bit after them is clear; this is the least
`u1 > u0` whose bit `u1 - 1` is clear. -/
theorem carry_correction (mt : Nat) (u0 : Int) :
    ∃ k : Nat, extend_boundary_past_carry mt u0 = u0 + k + 1 ∧
      BN_is_bit_set mt (u0 + k) = false ∧
      (∀ j : Nat, j < k → BN_is_bit_set mt (u0 + j) = true) ∧
      (∀ u1 : Int, u0 < u1 → BN_is_bit_set mt (u1 - 1) = false →
        extend_boundary_past_carry mt u0 ≤ u1) := by
  obtain ⟨k, hk⟩ := skipSetBits_add mt (BN_num_bits mt + 1) u0
  have hclear := skipSetBits_clear mt (BN_num_bits mt + 1) u0 (by omega) (by
    intro _
    have h1 := BN_num_bits_lt mt
    exact lt_of_lt_of_le h1 (Nat.pow_le_pow_right (by norm_num) (by omega)))
  rw [hk] at hclear
  have hrun := skipSetBits_run mt (BN_num_bits mt + 1) u0 k hk
  have hext : extend_boundary_past_carry mt u0 = u0 + k + 1 := by
    unfold extend_boundary_past_carry
    rw [hk]
  refine ⟨k, hext, hclear, hrun, ?_⟩
  intro u1 hlt hbit
  rw [hext]
  by_contra hcon
  obtain ⟨j, hj⟩ : ∃ j : Nat, u1 - 1 = u0 + (j : Int) := ⟨(u1 - 1 - u0).toNat, by omega⟩
  have hjk : j < k := by omega
  rw [hj, hrun j hjk] at hbit
  exact absurd hbit (by simp)

/-- C13: when `find_multiplier` returns with multiplier `s`, the `mt` it leaves
behind is the increment added `s` times to zero modulo `n`, which equals
`s * (mt_in * l_1 mod n) mod n = s * mt_in * l_1 mod n`, and it satisfies
`mt >> 2032 = 0x0002`. -/
theorem additive_search_is_multiplication (O : Oracle) (fuel c n e mt l_1 : Nat) (r : Found)
    (h : find_multiplier O fuel c n e mt l_1 = some r) :
    r.mt = addedIncrement n mt l_1 r.ss ∧
    addedIncrement n mt l_1 r.ss = scaledIncrement n mt l_1 r.ss ∧
    r.mt = r.ss * mt * l_1 % n ∧ r.mt >>> 2032 = 2 := by
  obtain ⟨_, _, _, _, a4, a5, _⟩ := find_multiplier_spec O fuel c n e mt l_1 r h
  have hiter : ∀ s, addedIncrement n mt l_1 s = scaledIncrement n mt l_1 s := by
    intro s
    unfold addedIncrement scaledIncrement
    induction s with
    | zero => simp
    | succ s ih =>
      rw [Function.iterate_succ_apply', ih, Nat.mod_add_mod]
      congr 1
      ring
  refine ⟨?_, hiter r.ss, ?_, a5⟩
  · rw [hiter, a4]; rfl
  · rw [a4, Nat.mul_mod_mod, Nat.mul_assoc]

theorem additive_search_is_multiplication_witness :
    find_multiplier plainOracle 4 toyCipher toyModulus 1 toyApprox 1
      = some ⟨200, 2, 5 * 2 ^ 2031 - 1, 2 ^ 2033 + 2 ^ 2031 + 14,
          [toyCipher, 2 ^ 2033 + 2 ^ 2031 + 14]⟩ ∧
    5 * 2 ^ 2031 - 1 = addedIncrement toyModulus toyApprox 1 2 ∧
    5 * 2 ^ 2031 - 1 = 2 * toyApprox * 1 % toyModulus :=
  have hrun : find_multiplier plainOracle 4 toyCipher toyModulus 1 toyApprox 1
      = some ⟨200, 2, 5 * 2 ^ 2031 - 1, 2 ^ 2033 + 2 ^ 2031 + 14,
          [toyCipher, 2 ^ 2033 + 2 ^ 2031 + 14]⟩ := by decide!
  have h := additive_search_is_multiplication plainOracle 4 toyCipher toyModulus 1 toyApprox 1
    _ hrun
  ⟨hrun, h.1, h.2.2.1⟩

/-- C14: in a SEARCH iteration, with `u ≥ l` after the clamp and the guess `g`
of `oracle_guess` for `l` bits, `g < 2^(l-8)` and the new `mt` is
`(mt >> u) * 2^u + g`; so `mt_new >> u = mt >> u`, `mt_new mod 2^u = g`, and
every bit of `mt_new` in `[l-8, u)` is zero. -/
theorem merge_keeps_high_bits (O : Oracle) (fuel : Nat) (st st1 : State)
    (h : search_iteration O fuel st = some st1) :
    ∃ (l_1 : Nat) (r : Found) (g : Nat),
      find_multiplier O fuel st.c st.n st.e st.mt l_1 = some r ∧
      oracle_guess O st1.c st1.l = some g ∧ st1.l ≤ st1.u ∧
      g < 2 ^ (st1.l - 8).toNat ∧
      st1.mt = (r.mt >>> st1.u.toNat) * 2 ^ st1.u.toNat + g ∧
      st1.mt >>> st1.u.toNat = r.mt >>> st1.u.toNat ∧
      st1.mt % 2 ^ st1.u.toNat = g ∧
      ∀ i : Nat, st1.l - 8 ≤ (i : Int) → (i : Int) < st1.u → st1.mt.testBit i = false := by
  obtain ⟨l_1, r, g, _, _, hfm, hg, b1, _, _, _, b5, _, b7, b8, b9⟩ :=
    search_iteration_spec O fuel st st1 h
  obtain ⟨_, _, _, _, _, _, _, a7, a8, _, _⟩ :=
    find_multiplier_spec O fuel st.c st.n st.e st.mt l_1 r hfm
  obtain ⟨buf, _, hcase⟩ := oracle_valid_spec O r.c r.l a7
  obtain ⟨_, _, hbs0, _, hgval⟩ := oracle_guess_spec O r.c r.l g hg
  have hlu : st1.l ≤ st1.u := by rw [b8, b5]; exact le_max_right _ _
  have hglt : g < 2 ^ (st1.l - 8).toNat := by
    rcases hcase with ⟨_, hl0⟩ | ⟨_, hl, _, _⟩
    · exact absurd hl0 a8
    · have htd : Int.tdiv r.l 8 - 1 = O.run_oracle_valid_multiple buf := by
        rw [hl, Int.mul_tdiv_cancel _ (by norm_num)]; omega
      rw [htd] at hgval hbs0
      have e1 : (st1.l - 8).toNat = 8 * (O.run_oracle_valid_multiple buf).toNat := by
        rw [b5, hl]; omega
      rw [e1, hgval]
      exact BN_bin2bn_take_lt _ _
  have hgU : g < 2 ^ st1.u.toNat :=
    lt_of_lt_of_le hglt (Nat.pow_le_pow_right (by norm_num) (by omega))
  have hmt : st1.mt = (r.mt >>> st1.u.toNat) * 2 ^ st1.u.toNat + g := by
    rw [b9, Nat.shiftLeft_eq]
  have hmod : st1.mt % 2 ^ st1.u.toNat = g := by
    rw [hmt, Nat.mul_comm, Nat.mul_add_mod, Nat.mod_eq_of_lt hgU]
  refine ⟨l_1, r, g, hfm, by rw [b1, b5]; exact hg, hlu, hglt, hmt, ?_, hmod, ?_⟩
  · rw [Nat.shiftRight_eq_div_pow st1.mt, hmt, Nat.mul_comm, Nat.mul_add_div (by positivity),
      Nat.div_eq_of_lt hgU]
    simp
  · intro i hi1 hi2
    have h1 := Nat.testBit_mod_two_pow st1.mt st1.u.toNat i
    rw [hmod] at h1
    have hiU : i < st1.u.toNat := by omega
    have hgi : g < 2 ^ i :=
      lt_of_lt_of_le hglt (Nat.pow_le_pow_right (by norm_num) (by omega))
    rw [Nat.testBit_lt_two_pow hgi] at h1
    simpa [hiU] using h1.symm

theorem merge_keeps_high_bits_witness :
    search_iteration plainOracle 2 onesInit = some onesNext ∧
    onesNext.mt % 2 ^ onesNext.u.toNat = 1 ∧
    ∀ i : Nat, onesNext.l - 8 ≤ (i : Int) → (i : Int) < onesNext.u →
      onesNext.mt.testBit i = false :=
  have hstep : search_iteration plainOracle 2 onesInit = some onesNext := by decide!
  (merge_keeps_high_bits plainOracle 2 onesInit onesNext hstep).elim fun _ h1 =>
    h1.elim fun _ h2 => h2.elim fun g h3 =>
      have hg : oracle_guess plainOracle onesNext.c onesNext.l = some 1 := by decide!
      have hg1 : g = 1 := by
        have h4 := h3.2.1
        rw [hg] at h4
        exact (Option.some.inj h4).symm
      ⟨hstep, by rw [h3.2.2.2.2.2.2.1, hg1], h3.2.2.2.2.2.2.2⟩

/-! ## Claims on INIT and on the guess length -/

/-- C15: after INIT the approximation is the guess `g` (at most 24 bytes) with
bit 2033 set: `mt >> 2032 = 0x0002`, the marker test of `find_multiplier`; the
low bits of `mt` are the guess, and `u = 2032` is the index just below the
marker bit. -/
theorem init_pins_marker (O : Oracle) (c n e S : Nat) (st : State)
    (h : decrypt_init O c n e S = some st) :
    ∃ g, oracle_guess O c st.l = some g ∧ g < 2 ^ 192 ∧
      st.mt = 2 ^ 2033 + g ∧ st.mt >>> 2032 = 2 ∧ st.mt % 2 ^ 2032 = g ∧
      st.u = 2032 ∧ st.mt.testBit (st.u.toNat + 1) = true ∧
      st.mt.testBit st.u.toNat = false := by
  obtain ⟨l, g, _, hg, hst⟩ := decrypt_init_spec O c n e S st h
  obtain ⟨_, _, hb0, hb24, hgval⟩ := oracle_guess_spec O c l g hg
  have hglt : g < 2 ^ 192 := by
    rw [hgval]
    refine lt_of_lt_of_le (BN_bin2bn_take_lt _ _) (Nat.pow_le_pow_right (by norm_num) ?_)
    omega
  have hg33 : g < 2 ^ 2033 :=
    lt_of_lt_of_le hglt (Nat.pow_le_pow_right (by norm_num) (by norm_num))
  have hg32 : g < 2 ^ 2032 :=
    lt_of_lt_of_le hglt (Nat.pow_le_pow_right (by norm_num) (by norm_num))
  have hmt : st.mt = 2 ^ 2033 + g := by
    subst hst
    exact lor_marker_bit g hg33
  have h33 : (2 : Nat) ^ 2033 = 2 ^ 2032 * 2 := pow_succ 2 2032
  have hu : st.u = 2032 := by subst hst; rfl
  have hutn : st.u.toNat = 2032 := by rw [hu]; rfl
  refine ⟨g, by subst hst; exact hg, hglt, hmt, ?_, ?_, hu, ?_, ?_⟩
  · rw [Nat.shiftRight_eq_div_pow, hmt, h33, Nat.mul_add_div (by positivity),
      Nat.div_eq_of_lt hg32]
  · rw [hmt, h33, Nat.mul_add_mod, Nat.mod_eq_of_lt hg32]
  · rw [hutn, hmt, Nat.testBit_two_pow_add_eq, Nat.testBit_lt_two_pow hg33]
    rfl
  · rw [hutn, hmt, Nat.testBit_two_pow_add_gt (by norm_num), Nat.testBit_lt_two_pow hg32]

theorem init_pins_marker_witness :
    decrypt_init plainOracle toyPlaintext toyModulus 1 1 = some toyInit ∧
    ∃ g, oracle_guess plainOracle toyPlaintext toyInit.l = some g ∧ g < 2 ^ 192 ∧
      toyInit.mt = 2 ^ 2033 + g ∧ toyInit.mt >>> 2032 = 2 ∧ toyInit.mt % 2 ^ 2032 = g ∧
      toyInit.u = 2032 ∧ toyInit.mt.testBit (toyInit.u.toNat + 1) = true ∧
      toyInit.mt.testBit toyInit.u.toNat = false :=
  ⟨toy_init, init_pins_marker plainOracle toyPlaintext toyModulus 1 1 toyInit toy_init⟩

/-- C16: for an oracle byte count `b ≥ 1`, `oracle_valid` returns
`l = (b + 1) * 8`, `oracle_guess` called with this `l` requests exactly
`l/8 - 1 = b` bytes, and the number it decodes from them is below
`2^(8b) = 2^(l-8)`. -/
theorem guess_length_undoes_conversion (O : Oracle) (c : Nat) (buf : List Nat)
    (henc : enc_key c = some buf) (hb : 1 ≤ O.run_oracle_valid_multiple buf)
    (hrange : (O.run_oracle_valid_multiple buf + 1) * 8 ≤ INT_MAX) :
    oracle_valid O c = some ((O.run_oracle_valid_multiple buf + 1) * 8) ∧
    Int.tdiv ((O.run_oracle_valid_multiple buf + 1) * 8) 8 - 1
      = O.run_oracle_valid_multiple buf ∧
    oracle_guess O c ((O.run_oracle_valid_multiple buf + 1) * 8)
      = (if 24 < O.run_oracle_valid_multiple buf ∨
            (O.run_oracle_guess (O.run_oracle_valid_multiple buf) buf).length
              < (O.run_oracle_valid_multiple buf).toNat then none
         else some (BN_bin2bn ((O.run_oracle_guess (O.run_oracle_valid_multiple buf) buf).take
            (O.run_oracle_valid_multiple buf).toNat))) ∧
    BN_bin2bn ((O.run_oracle_guess (O.run_oracle_valid_multiple buf) buf).take
        (O.run_oracle_valid_multiple buf).toNat)
      < 2 ^ (8 * (O.run_oracle_valid_multiple buf).toNat) ∧
    8 * (O.run_oracle_valid_multiple buf).toNat
      = ((O.run_oracle_valid_multiple buf + 1) * 8 - 8).toNat := by
  have htd : Int.tdiv ((O.run_oracle_valid_multiple buf + 1) * 8) 8 - 1
      = O.run_oracle_valid_multiple buf := by
    rw [Int.mul_tdiv_cancel _ (by norm_num)]; omega
  refine ⟨?_, htd, ?_, BN_bin2bn_take_lt _ _, by omega⟩
  · unfold oracle_valid
    rw [henc]
    simp only
    have hmin : INT_MIN ≤ (O.run_oracle_valid_multiple buf + 1) * 8 := by
      unfold INT_MIN; omega
    rw [if_neg (by omega), if_neg (by omega)]
  · unfold oracle_guess
    rw [henc]
    simp only
    rw [htd]
    by_cases h24 : 24 < O.run_oracle_valid_multiple buf ∨
        (O.run_oracle_guess (O.run_oracle_valid_multiple buf) buf).length
          < (O.run_oracle_valid_multiple buf).toNat
    · rw [if_pos h24, if_pos (Or.inr h24)]
    · rw [if_neg h24, if_neg (by
        rintro (h1 | h2)
        · omega
        · exact h24 h2)]

theorem guess_length_undoes_conversion_witness :
    enc_key toyPlaintext
      = some (List.replicate (256 - BN_num_bytes toyPlaintext) 0 ++ BN_bn2bin toyPlaintext) ∧
    plainOracle.run_oracle_valid_multiple
      (List.replicate (256 - BN_num_bytes toyPlaintext) 0 ++ BN_bn2bin toyPlaintext) = 24 ∧
    oracle_valid plainOracle toyPlaintext = some 200 ∧
    oracle_guess plainOracle toyPlaintext 200 = some (5 ^ 67) ∧
    5 ^ 67 < 2 ^ (8 * 24) :=
  have henc : enc_key toyPlaintext
      = some (List.replicate (256 - BN_num_bytes toyPlaintext) 0 ++ BN_bn2bin toyPlaintext) := by
    decide!
  have hval : plainOracle.run_oracle_valid_multiple
      (List.replicate (256 - BN_num_bytes toyPlaintext) 0 ++ BN_bn2bin toyPlaintext) = 24 := by
    decide!
  have h := guess_length_undoes_conversion plainOracle toyPlaintext _ henc
    (by rw [hval]; decide) (by rw [hval]; decide)
  have hguess : oracle_guess plainOracle toyPlaintext 200 = some (5 ^ 67) := by decide!
  ⟨henc, hval, by simpa [hval] using h.1, hguess, by
    have h4 := h.2.2.2.1
    rw [hval] at h4
    have h3 := h.2.2.1
    rw [hval] at h3
    have e200 : ((24 : Int) + 1) * 8 = 200 := by norm_num
    rw [e200, hguess] at h3
    split at h3
    · exact absurd h3 (by simp)
    · rw [← Option.some.inj h3] at h4
      exact h4⟩

end Drown
